import Mathlib

/-!
Shallow embedding of the m,n,k-game solver (`board.c`, header `board.h`, and the
early standalone prototype) together with proofs about its components.

Conventions of the embedding:
* C machine integers stay well inside 32-bit bounds on all inputs considered
  (board dimensions are at most 15, scores at most 10000), so they are modelled
  by `Nat`/`Int` without wraparound.
* A `board_t` is modelled as a total function `Nat → Nat → Cell`; the algorithms
  only ever read cells inside the active `M × N` region (the storage outside it
  is kept blank in the C program and is irrelevant here).
* C loops become folds or recursion over explicit lists of visited indices,
  in the exact visiting order of the source.
* Out-parameters written through pointers become explicit return values; the
  `x == -1` cursor sentinel becomes `Option`.
-/

namespace Mnk

/-- Cell contents of a gameplay board: `PLAYER_NONE` (0), `PLAYER_US` (1),
`PLAYER_THEM` (2).  The fourth marker `PLAYER_TIE` (4) is only ever written by
the display code (`postMove`), never into a board handled by the solver. -/
inductive Cell where
  | cnone : Cell
  | cus : Cell
  | cthem : Cell
deriving DecidableEq, Repr

/-- Result values of `checkWin`: nobody won yet (0), player 1 won (1),
player 2 won (2), tied board (4). -/
inductive WinRes where
  | wnone : WinRes
  | wus : WinRes
  | wthem : WinRes
  | wtie : WinRes
deriving DecidableEq, Repr

/-- A board, `board_t`: cell contents indexed by `x` (column) and `y` (row). -/
def Board : Type := Nat → Nat → Cell

/-- A position on the board, `(x, y)`. -/
abbrev Pos : Type := Nat × Nat

/-- Sentinel win score `EVAL_INF` (`board.h`). -/
def EVAL_INF : Int := 10000

/-- Sentinel loss score `EVAL_N_INF` (`board.h`). -/
def EVAL_N_INF : Int := -10000

/-- Highest score the evaluation function can produce, `EVAL_MAX` (`board.h`). -/
def EVAL_MAX : Int := 7230

/-- Lowest score the evaluation function can produce, `EVAL_MIN` (`board.h`). -/
def EVAL_MIN : Int := -7230

/-- The node budget `MAX_MINIMAX_SEARCH_NODES` used by `main`. -/
def MAX_MINIMAX_SEARCH_NODES : Nat := 800000

/-- The loop of `calculateDepth` (`board.c`): `i` is the loop counter,
`opn` the remaining `openNodes`, `searched` the projected node count.
One unfolding is one iteration of `for(int i = 1; i < 20; i++)`. -/
def calcLoop (maxNodes : Nat) (i opn searched : Nat) : Nat :=
  if i < 20 then
    if opn = 0 then i - 1
    else if searched ≥ maxNodes then i - 1
    else calcLoop maxNodes (i + 1) (opn - 1) (searched * (opn - 1))
  else 20
termination_by 20 - i

/-- `calculateDepth(openNodes, maxNodesSearched)` from `board.c`. -/
def calculateDepth (openNodes maxNodesSearched : Nat) : Nat :=
  calcLoop maxNodesSearched 1 openNodes openNodes

/-- The successive values taken by the variable `searched` inside
`calculateDepth`: `searchedSeq n j` is the value checked against the budget at
loop iteration `i = j + 1`. -/
def searchedSeq (n : Nat) : Nat → Nat
  | 0 => n
  | j + 1 => searchedSeq n j * (n - (j + 1))

/-- `copyWithMove(dst, src, player, x, y)` from `board.c`: the board `src`
with `player`'s stone placed at `(x, y)`. -/
def copyWithMove (b : Board) (p : Cell) (x y : Nat) : Board :=
  fun x' y' => if x' = x ∧ y' = y then p else b x' y'

/-- Cells of row `y` in the order the row loops visit them (`x` from `0` to
`M - 1`). -/
def rowCells (M : Nat) (b : Board) (y : Nat) : List Cell :=
  (List.range M).map (fun x => b x y)

/-- Cells of column `x` in the order the column loops of `board.c` visit them
(`y` from `0` to `N - 1`). -/
def colCells (N : Nat) (b : Board) (x : Nat) : List Cell :=
  (List.range N).map (fun y => b x y)

/-- Start bound `j` of the down-and-left (anti-)diagonal loops:
`j = (i < M) ? 0 : (i - M + 1)`. -/
def diag1J (M i : Nat) : Nat := if i < M then 0 else i - M + 1

/-- End bound `z` of the down-and-left diagonal loops:
`z = (i < N) ? (i + 1) : N`. -/
def diag1Z (N i : Nat) : Nat := if i < N then i + 1 else N

/-- Cells of the `i`-th down-and-left diagonal in visiting order:
`y` from `j` to `z - 1`, `x = i - y`. -/
def diag1Cells (M N : Nat) (b : Board) (i : Nat) : List Cell :=
  (List.range (diag1Z N i - diag1J M i)).map
    (fun t => b (i - (diag1J M i + t)) (diag1J M i + t))

/-- Start bound `j` of the down-and-right diagonal loops:
`j = (i < N) ? (N - i - 1) : 0`. -/
def diag2J (N i : Nat) : Nat := if i < N then N - i - 1 else 0

/-- End bound `z` of the down-and-right diagonal loops:
`z = (i < M) ? N : (M + N - i - 1)`. -/
def diag2Z (M N i : Nat) : Nat := if i < M then N else M + N - i - 1

/-- Cells of the `i`-th down-and-right diagonal in visiting order:
`y` from `j` to `z - 1`, `x = i + y - N + 1` (always nonnegative within the
bounds, computed here as `i + y + 1 - N` on `Nat`). -/
def diag2Cells (M N : Nat) (b : Board) (i : Nat) : List Cell :=
  (List.range (diag2Z M N i - diag2J N i)).map
    (fun t => b (i + (diag2J N i + t) + 1 - N) (diag2J N i + t))

/-- The row lines in the order the row phase of `checkWin`/`evaluateBoard`
scans them. -/
def rowLines (M N : Nat) (b : Board) : List (List Cell) :=
  (List.range N).map (rowCells M b)

/-- The column lines in the order the column phase of `board.c` scans them. -/
def colLines (M N : Nat) (b : Board) : List (List Cell) :=
  (List.range M).map (colCells N b)

/-- The down-and-left diagonal lines, `i` from `0` to `M + N - 2`. -/
def diag1Lines (M N : Nat) (b : Board) : List (List Cell) :=
  (List.range (M + N - 1)).map (diag1Cells M N b)

/-- The down-and-right diagonal lines, `i` from `0` to `M + N - 2`. -/
def diag2Lines (M N : Nat) (b : Board) : List (List Cell) :=
  (List.range (M + N - 1)).map (diag2Cells M N b)

/-- All lines of the board in the scan order of `checkWin`: rows, then
columns, then down-and-left diagonals, then down-and-right diagonals. -/
def allLines (M N : Nat) (b : Board) : List (List Cell) :=
  rowLines M N b ++ colLines M N b ++ diag1Lines M N b ++ diag2Lines M N b

/-- One line scan of `checkWin`: walk the cells keeping the two running
counts `count1`/`count2` of consecutive own/opponent stones (reset on any cell
not of that player, `count1` checked against `K` first at every cell), and
report the first player whose count reaches `K`. -/
def scanLine (K : Nat) : List Cell → Nat → Nat → Option WinRes
  | [], _, _ => none
  | c :: rest, count1, count2 =>
    let count1' := if c = Cell.cus then count1 + 1 else 0
    let count2' := if c = Cell.cthem then count2 + 1 else 0
    if K ≤ count1' then some WinRes.wus
    else if K ≤ count2' then some WinRes.wthem
    else scanLine K rest count1' count2'

/-- `checkWin` from `board.c` (lines 77-156): scan rows, columns and both
diagonal families in order, returning at the first completed `K`-run; if no
run is found, the `hasEmpty` flag gathered while scanning the down-and-right
diagonals (which cover every active cell) decides between no-result and tie. -/
def checkWin (M N K : Nat) (b : Board) : WinRes :=
  match (allLines M N b).findSome? (fun l => scanLine K l 0 0) with
  | some r => r
  | none =>
    if ((diag2Lines M N b).flatten).any (fun c => c = Cell.cnone) then WinRes.wnone
    else WinRes.wtie

/-- The column lines of the prototype `checkWin` (the standalone early file):
its column phase runs `for(x = 0; x < N; x++) for(y = 0; y < M; y++)`,
with the two bounds swapped relative to `board.c`. -/
def colLinesProto (M N : Nat) (b : Board) : List (List Cell) :=
  (List.range N).map (fun x => (List.range M).map (fun y => b x y))

/-- `checkWin` of the prototype file: identical to the primary `checkWin`
except for the swapped bounds in the column phase. -/
def checkWinProto (M N K : Nat) (b : Board) : WinRes :=
  match ((rowLines M N b ++ colLinesProto M N b ++ diag1Lines M N b ++
      diag2Lines M N b)).findSome? (fun l => scanLine K l 0 0) with
  | some r => r
  | none =>
    if ((diag2Lines M N b).flatten).any (fun c => c = Cell.cnone) then WinRes.wnone
    else WinRes.wtie

/-- The run counters of `evaluateBoard` (the `EVAL_COUNTERS_DECL` macro)
together with the running contribution `acc` of completed runs to
`finalScore`. -/
structure EvalSt where
  runLen1 : Nat
  pieces1 : Nat
  runScore1 : Nat
  runLen2 : Nat
  pieces2 : Nat
  runScore2 : Nat
  acc : Int
deriving DecidableEq, Repr

/-- Initial run counters of a line (`EVAL_COUNTERS_DECL`). -/
def evalInit : EvalSt := ⟨0, 0, 0, 0, 0, 0, 0⟩

/-- One step of `EVAL_RUN_BODY` on a cell. -/
def evalStep (K : Nat) (st : EvalSt) (c : Cell) : EvalSt :=
  match c with
  | Cell.cus =>
    { runLen1 := st.runLen1 + 1
      pieces1 := st.pieces1 + 1
      runScore1 := st.runScore1 + (st.pieces1 + 1) + 1
      runLen2 := 0
      pieces2 := 0
      runScore2 := 0
      acc := if K ≤ st.runLen2 then st.acc - (st.runScore2 : Int) else st.acc }
  | Cell.cthem =>
    { runLen1 := 0
      pieces1 := 0
      runScore1 := 0
      runLen2 := st.runLen2 + 1
      pieces2 := st.pieces2 + 1
      runScore2 := st.runScore2 + (st.pieces2 + 1) + 1
      acc := if K ≤ st.runLen1 then st.acc + (st.runScore1 : Int) else st.acc }
  | Cell.cnone =>
    { st with runLen1 := st.runLen1 + 1, runLen2 := st.runLen2 + 1 }

/-- `EVAL_END_RUN`: close both open runs at the end of a line. -/
def evalEndRun (K : Nat) (st : EvalSt) : Int :=
  let a := if K ≤ st.runLen2 then st.acc - (st.runScore2 : Int) else st.acc
  if K ≤ st.runLen1 then a + (st.runScore1 : Int) else a

/-- Run-potential contribution of one line to `finalScore`. -/
def evalLine (K : Nat) (cells : List Cell) : Int :=
  evalEndRun K (cells.foldl (evalStep K) evalInit)

/-- Positional weight of a cell: 2 in the central third of both dimensions,
1 otherwise (`evaluateBoard`, piece-location loop). -/
def posValue (M N x y : Nat) : Int :=
  if M / 3 ≤ x ∧ x < M - M / 3 ∧ N / 3 ≤ y ∧ y < N - N / 3 then 2 else 1

/-- The piece-location term of `evaluateBoard`. -/
def positionalScore (M N : Nat) (b : Board) : Int :=
  ((List.range M).map (fun x =>
    ((List.range N).map (fun y =>
      if b x y = Cell.cus then posValue M N x y
      else if b x y = Cell.cthem then -(posValue M N x y)
      else 0)).sum)).sum

/-- `evaluateBoard` from `board.c` (lines 363-422): piece-location term plus
run-potential terms for rows, columns and both diagonal families. -/
def evaluateBoard (M N K : Nat) (b : Board) : Int :=
  positionalScore M N b
    + ((rowLines M N b).map (evalLine K)).sum
    + ((colLines M N b).map (evalLine K)).sum
    + ((diag1Lines M N b).map (evalLine K)).sum
    + ((diag2Lines M N b).map (evalLine K)).sum

/-- The scan loop of `nextPosition` (the `do { ... } while(newy < N)` part):
from `(newx, newy)` onward, in scan order (`x` fastest), find the first empty
cell.  The loop is always entered with `newy < N`, so checking the condition
first is equivalent to the do-while of the source. -/
def scanFrom (M N : Nat) (b : Board) (newx newy : Nat) : Option Pos :=
  if newy < N then
    if b newx newy = Cell.cnone then some (newx, newy)
    else if newx + 1 < M then scanFrom M N b (newx + 1) newy
    else scanFrom M N b 0 (newy + 1)
  else none
termination_by (N - newy, M - newx)

/-- `nextPosition` from `board.c` (lines 165-194): advance the cursor (the
`*x == -1` sentinel becomes `none`) and scan for the next empty cell. -/
def nextPosition (M N : Nat) (b : Board) : Option Pos → Option Pos
  | none => scanFrom M N b 0 0
  | some (x, y) =>
    if x + 1 < M then scanFrom M N b (x + 1) y
    else if y + 1 < N then scanFrom M N b 0 (y + 1)
    else none

/-- Iterating `nextPosition` from a cursor, collecting the produced positions.
The fuel argument only bounds the iteration count; `M * N` steps always
suffice because every produced position is strictly later in scan order. -/
def posListAux (M N : Nat) (b : Board) : Nat → Option Pos → List Pos
  | 0, _ => []
  | fuel + 1, cur =>
    match nextPosition M N b cur with
    | none => []
    | some p => p :: posListAux M N b fuel (some p)

/-- The full stream of positions a `*x = -1; while(nextPosition(b, &x, &y))`
loop of `board.c` visits. -/
def posList (M N : Nat) (b : Board) : List Pos :=
  posListAux M N b (M * N) none

/-- `countEmpty` from `board.c`. -/
def countEmpty (M N : Nat) (b : Board) : Nat :=
  ((List.range M).map (fun x =>
    ((List.range N).map (fun y => if b x y = Cell.cnone then 1 else 0)).sum)).sum

/-- First block of `basicSolve` (win if we can). -/
def block1 (M N K : Nat) (b : Board) : Option Pos :=
  (posList M N b).find? (fun q =>
    decide (checkWin M N K (copyWithMove b Cell.cus q.1 q.2) = WinRes.wus))

/-- Second block of `basicSolve` (block win). -/
def block2 (M N K : Nat) (b : Board) : Option Pos :=
  (posList M N b).find? (fun q =>
    decide (checkWin M N K (copyWithMove b Cell.cthem q.1 q.2) = WinRes.wthem))

/-- The inner `winCount` of the fork blocks: number of follow-up own moves on
`s0 = b + own stone at q` that immediately win. -/
def usForkCount (M N K : Nat) (b : Board) (q : Pos) : Nat :=
  ((posList M N (copyWithMove b Cell.cus q.1 q.2)).countP (fun r =>
    decide (checkWin M N K
      (copyWithMove (copyWithMove b Cell.cus q.1 q.2) Cell.cus r.1 r.2) = WinRes.wus)))

/-- Third block of `basicSolve` (fork if we can, lines 230-241). -/
def block3 (M N K : Nat) (b : Board) : Option Pos :=
  (posList M N b).find? (fun q => decide (2 ≤ usForkCount M N K b q))

/-- Fourth block of `basicSolve` (commented `fork if we can (incl. third level
forks)`, lines 242-253); its body repeats the third block verbatim. -/
def block4 (M N K : Nat) (b : Board) : Option Pos :=
  (posList M N b).find? (fun q => decide (2 ≤ usForkCount M N K b q))

/-- Number of immediate opponent wins available on the board `s0`. -/
def themWinCount (M N K : Nat) (s0 : Board) : Nat :=
  (posList M N s0).countP (fun r =>
    decide (checkWin M N K (copyWithMove s0 Cell.cthem r.1 r.2) = WinRes.wthem))

/-- The third-level probe of the fifth block: number of own replies `r` to
`s0` after which at least two further own moves each win. -/
def usProbeCount (M N K : Nat) (s0 : Board) : Nat :=
  (posList M N s0).countP (fun r =>
    decide (2 ≤ (posList M N (copyWithMove s0 Cell.cus r.1 r.2)).countP (fun r2 =>
      decide (checkWin M N K
        (copyWithMove (copyWithMove s0 Cell.cus r.1 r.2) Cell.cus r2.1 r2.2) = WinRes.wus))))

/-- The third-level probe of the sixth block, which deepens on the opponent
side instead. -/
def themProbeCount (M N K : Nat) (s0 : Board) : Nat :=
  (posList M N s0).countP (fun r =>
    decide (2 ≤ (posList M N (copyWithMove s0 Cell.cthem r.1 r.2)).countP (fun r2 =>
      decide (checkWin M N K
        (copyWithMove (copyWithMove s0 Cell.cthem r.1 r.2) Cell.cthem r2.1 r2.2) = WinRes.wthem))))

/-- Fifth block of `basicSolve` (block fork if we can, lines 254-279): count
direct opponent follow-up wins; when exactly one, add the third-level probe
on the own side. -/
def block5 (M N K : Nat) (b : Board) : Option Pos :=
  (posList M N b).find? (fun q =>
    let s0 := copyWithMove b Cell.cthem q.1 q.2
    let winCount := themWinCount M N K s0
    decide (2 ≤ (if winCount = 1 then winCount + usProbeCount M N K s0 else winCount)))

/-- Sixth block of `basicSolve` (block fork if we can (and third level fork),
lines 280-305): like the fifth but the probe deepens on the opponent side. -/
def block6 (M N K : Nat) (b : Board) : Option Pos :=
  (posList M N b).find? (fun q =>
    let s0 := copyWithMove b Cell.cthem q.1 q.2
    let winCount := themWinCount M N K s0
    decide (2 ≤ (if winCount = 1 then winCount + themProbeCount M N K s0 else winCount)))

/-- `basicSolve` from `board.c` (lines 214-308): the six candidate blocks in
order, stopping at the first that returns a move. -/
def basicSolve (M N K : Nat) (b : Board) : Option Pos :=
  match block1 M N K b with
  | some q => some q
  | none =>
    match block2 M N K b with
    | some q => some q
    | none =>
      match block3 M N K b with
      | some q => some q
      | none =>
        match block4 M N K b with
        | some q => some q
        | none =>
          match block5 M N K b with
          | some q => some q
          | none => block6 M N K b

/-- `basicSolve` with the duplicated fourth block removed (the comparison
target of the fourth-block redundancy claim). -/
def basicSolveNoFourth (M N K : Nat) (b : Board) : Option Pos :=
  match block1 M N K b with
  | some q => some q
  | none =>
    match block2 M N K b with
    | some q => some q
    | none =>
      match block3 M N K b with
      | some q => some q
      | none =>
        match block5 M N K b with
        | some q => some q
        | none => block6 M N K b

/-- The loss-decay adjustment of `minimax`: `if(value < EVAL_MIN) value++`. -/
def decay (v : Int) : Int := if v < EVAL_MIN then v + 1 else v

/-- The maximizing loop of `minimax` (lines 501-518): fold over the candidate
moves, keeping the strictly best value and move, raising `alpha`, and breaking
once `alpha >= beta`.  `f alpha q` is the score of the child reached by `q`
when searched with window `(alpha, beta)`. -/
def abMaxLoop (beta : Int) (f : Int → Pos → Int) :
    List Pos → Int → Option Pos → Int → Int × Option Pos
  | [], value, best, _alpha => (value, best)
  | q :: rest, value, best, alpha =>
    let nodeValue := f alpha q
    let value' := if value < nodeValue then nodeValue else value
    let best' := if value < nodeValue then some q else best
    let alpha' := max alpha value'
    if beta ≤ alpha' then (value', best')
    else abMaxLoop beta f rest value' best' alpha'

/-- The minimizing loop of `minimax` (lines 524-547): as in the source, it
updates `alpha = min(alpha, value)` and never modifies `beta`. -/
def abMinLoop (beta : Int) (f : Int → Pos → Int) :
    List Pos → Int → Option Pos → Int → Int × Option Pos
  | [], value, best, _alpha => (value, best)
  | q :: rest, value, best, alpha =>
    let nodeValue := f alpha q
    let value' := if nodeValue < value then nodeValue else value
    let best' := if nodeValue < value then some q else best
    let alpha' := min alpha value'
    if beta ≤ alpha' then (value', best')
    else abMinLoop beta f rest value' best' alpha'

/-- `minimax` from `board.c` (lines 487-548).  The out-parameters `x`, `y`
become the second component; the terminal and depth-0 branches return without
writing them, so the caller's previous contents `prev` come back unchanged.
The scratch coordinates passed to child calls are discarded, modelled by
passing `none`. -/
def minimax (M N K : Nat) : Nat → Board → Int → Int → Bool → Option Pos → Int × Option Pos
  | depth, b, alpha, beta, isMaximizePlayer, prev =>
    match checkWin M N K b with
    | WinRes.wus => (EVAL_INF, prev)
    | WinRes.wthem => (EVAL_N_INF, prev)
    | WinRes.wtie => (0, prev)
    | WinRes.wnone =>
      match depth with
      | 0 => (evaluateBoard M N K b, prev)
      | d + 1 =>
        if isMaximizePlayer then
          let r := abMaxLoop beta
            (fun a q => (minimax M N K d (copyWithMove b Cell.cus q.1 q.2) a beta false none).1)
            (posList M N b) EVAL_N_INF none alpha
          (decay r.1, r.2)
        else
          let r := abMinLoop beta
            (fun a q => (minimax M N K d (copyWithMove b Cell.cthem q.1 q.2) a beta true none).1)
            (posList M N b) EVAL_INF none alpha
          (decay r.1, r.2)

/-- The maximizing loop without pruning: every child is enumerated. -/
def fullMaxLoop (f : Pos → Int) : List Pos → Int → Option Pos → Int × Option Pos
  | [], value, best => (value, best)
  | q :: rest, value, best =>
    let nodeValue := f q
    if value < nodeValue then fullMaxLoop f rest nodeValue (some q)
    else fullMaxLoop f rest value best

/-- The minimizing loop without pruning: every child is enumerated. -/
def fullMinLoop (f : Pos → Int) : List Pos → Int → Option Pos → Int × Option Pos
  | [], value, best => (value, best)
  | q :: rest, value, best =>
    let nodeValue := f q
    if nodeValue < value then fullMinLoop f rest nodeValue (some q)
    else fullMinLoop f rest value best

/-- Unpruned minimax, modelled from the spec for the differential claim: the
same terminal scores, depth bound and loss-decay adjustment as `minimax`, but
enumerating every child at every node. -/
def minimaxFull (M N K : Nat) : Nat → Board → Bool → Option Pos → Int × Option Pos
  | depth, b, isMaximizePlayer, prev =>
    match checkWin M N K b with
    | WinRes.wus => (EVAL_INF, prev)
    | WinRes.wthem => (EVAL_N_INF, prev)
    | WinRes.wtie => (0, prev)
    | WinRes.wnone =>
      match depth with
      | 0 => (evaluateBoard M N K b, prev)
      | d + 1 =>
        if isMaximizePlayer then
          let r := fullMaxLoop
            (fun q => (minimaxFull M N K d (copyWithMove b Cell.cus q.1 q.2) false none).1)
            (posList M N b) EVAL_N_INF none
          (decay r.1, r.2)
        else
          let r := fullMinLoop
            (fun q => (minimaxFull M N K d (copyWithMove b Cell.cthem q.1 q.2) true none).1)
            (posList M N b) EVAL_INF none
          (decay r.1, r.2)

/-- Number of candidate moves the minimizing loop of `minimax` enumerates
(one per executed loop iteration, mirroring `abMinLoop`). -/
def abMinVisits (beta : Int) (f : Int → Pos → Int) : List Pos → Int → Int → Nat
  | [], _value, _alpha => 0
  | q :: rest, value, alpha =>
    let nodeValue := f alpha q
    let value' := if nodeValue < value then nodeValue else value
    let alpha' := min alpha value'
    if beta ≤ alpha' then 1
    else 1 + abMinVisits beta f rest value' alpha'

/-- Number of candidate moves a minimizing loop enumerates under the claimed
semantics, modelled from the spec: `beta` is lowered to the lowest value found
so far and enumeration stops exactly when `alpha >= beta`. -/
def abMinVisitsClaimed (alpha : Int) (f : Int → Pos → Int) : List Pos → Int → Int → Nat
  | [], _value, _beta => 0
  | q :: rest, value, beta =>
    let nodeValue := f beta q
    let value' := if nodeValue < value then nodeValue else value
    let beta' := min beta value'
    if beta' ≤ alpha then 1
    else 1 + abMinVisitsClaimed alpha f rest value' beta'

/-- `minimaxMove` from `board.c`: run `minimax` with the sentinel window and
report the move left in `x`, `y` (found iff both differ from `-1`). -/
def minimaxMove (M N K : Nat) (b : Board) (depth : Nat) (prev : Option Pos) : Option Pos :=
  (minimax M N K depth b EVAL_N_INF EVAL_INF true prev).2

/-- The loop of `higestScoredMove`. -/
def hsLoop (M N K : Nat) (b : Board) : List Pos → Int → Option Pos → Option Pos
  | [], _maxScore, best => best
  | q :: rest, maxScore, best =>
    let score := evaluateBoard M N K (copyWithMove b Cell.cus q.1 q.2)
    if maxScore < score then hsLoop M N K b rest score (some q)
    else hsLoop M N K b rest maxScore best

/-- `higestScoredMove` from `board.c` (lines 433-452). -/
def higestScoredMove (M N K : Nat) (b : Board) : Option Pos :=
  hsLoop M N K b (posList M N b) EVAL_N_INF none

/-- `backUpMove` from `board.c`: the first legal move. -/
def backUpMove (M N : Nat) (b : Board) : Option Pos :=
  nextPosition M N b none

/-- One round of the move-selection pipeline of `main` (lines 791-814):
`basicSolve`, then `minimax` at the computed depth, then the highest-scored
single-ply move, then the first-empty-cell fallback.  Every block of
`basicSolve` resets the cursor with `*x = -1` and runs its
`while(nextPosition(...))` loop to exhaustion, and `nextPosition` writes `x`,
`y` only on success; hence when `basicSolve` returns 0 the variables `x`, `y`
of `main` hold the last enumerated empty cell — or the `-1` sentinel when the
board has no empty cell — and that cursor state is what `minimaxMove`
inspects. -/
def chooseMove (M N K : Nat) (b : Board) : Option Pos :=
  match basicSolve M N K b with
  | some q => some q
  | none =>
    match minimaxMove M N K b
        (calculateDepth (countEmpty M N b) MAX_MINIMAX_SEARCH_NODES)
        ((posList M N b).getLast?) with
    | some q => some q
    | none =>
      match higestScoredMove M N K b with
      | some q => some q
      | none => backUpMove M N b

/-- Swap the two players' stones in a cell (empty stays empty). -/
def cellSwap : Cell → Cell
  | Cell.cnone => Cell.cnone
  | Cell.cus => Cell.cthem
  | Cell.cthem => Cell.cus

/-- Swap the two players' stones throughout a board. -/
def boardSwap (b : Board) : Board := fun x y => cellSwap (b x y)

/-- Swap the two players' run counters and negate the accumulated score. -/
def stSwap (st : EvalSt) : EvalSt :=
  ⟨st.runLen2, st.pieces2, st.runScore2, st.runLen1, st.pieces1, st.runScore1, -st.acc⟩

/-- All positions of the active region in scan order (`x` fastest). -/
def allPos (M N : Nat) : List Pos :=
  (List.range N).flatMap (fun y => (List.range M).map (fun x => (x, y)))

/-- The empty cells of the active region in scan order (`x` fastest): the
sequence the Move Enumerator is specified to produce. -/
def activeEmpty (M N : Nat) (b : Board) : List Pos :=
  (List.range N).flatMap (fun y => (List.range M).filterMap (fun x =>
    if b x y = Cell.cnone then some (x, y) else none))

/-- A run of `K` consecutive `p` cells inside a line. -/
def kRun (K : Nat) (p : Cell) (l : List Cell) : Prop :=
  ∃ i, i + K ≤ l.length ∧ ∀ t < K, l[i + t]? = some p

/-- A `K`-in-a-row of player `p` along some row of the active region. -/
def hasRowRun (M N K : Nat) (b : Board) (p : Cell) : Prop :=
  ∃ x y, x + K ≤ M ∧ y < N ∧ ∀ t < K, b (x + t) y = p

/-- A `K`-in-a-row of player `p` along some column of the active region. -/
def hasColRun (M N K : Nat) (b : Board) (p : Cell) : Prop :=
  ∃ x y, x < M ∧ y + K ≤ N ∧ ∀ t < K, b x (y + t) = p

/-- A `K`-in-a-row of player `p` along a down-and-left (anti-)diagonal. -/
def hasDiag1Run (M N K : Nat) (b : Board) (p : Cell) : Prop :=
  ∃ x y, x + K ≤ M ∧ y + K ≤ N ∧ ∀ t < K, b (x + t) (y + K - 1 - t) = p

/-- A `K`-in-a-row of player `p` along a down-and-right diagonal. -/
def hasDiag2Run (M N K : Nat) (b : Board) (p : Cell) : Prop :=
  ∃ x y, x + K ≤ M ∧ y + K ≤ N ∧ ∀ t < K, b (x + t) (y + t) = p

/-- Player `p` has `K` consecutive stones along a row, column, or either
diagonal family of the active region. -/
def hasRun (M N K : Nat) (b : Board) (p : Cell) : Prop :=
  hasRowRun M N K b p ∨ hasColRun M N K b p ∨ hasDiag1Run M N K b p ∨ hasDiag2Run M N K b p

/-- A `K`-run of `p` cells ends exactly at index `t` of line `l`. -/
def windowEndAt (K : Nat) (p : Cell) (l : List Cell) (t : Nat) : Prop :=
  K ≤ t + 1 ∧ t < l.length ∧ ∀ s < K, l[t - s]? = some p

/-- A completion event in the scan order of `checkWin`: player `p` completes a
`K`-run at cell index `e.2` of line `e.1` (lines ordered as `allLines`; an
out-of-range line index yields `False` because the empty default line has no
window). -/
def complEvent (M N K : Nat) (b : Board) (p : Cell) (e : Nat × Nat) : Prop :=
  windowEndAt K p ((allLines M N b).getD e.1 []) e.2

instance (K : Nat) (p : Cell) (l : List Cell) (t : Nat) :
    Decidable (windowEndAt K p l t) := by
  unfold windowEndAt
  infer_instance

instance (M N K : Nat) (b : Board) (p : Cell) (e : Nat × Nat) :
    Decidable (complEvent M N K b p e) := by
  unfold complEvent
  infer_instance

/-- Strict order on completion events: earlier line, or same line and earlier
cell. -/
def evLt (e e' : Nat × Nat) : Prop :=
  e.1 < e'.1 ∨ (e.1 = e'.1 ∧ e.2 < e'.2)

/-- The running count of consecutive `p` cells after scanning a list, starting
from count `c0` (the value of `count1`/`count2` in `checkWin`). -/
def cnt (p : Cell) : Nat → List Cell → Nat
  | c0, [] => c0
  | c0, c :: rest => cnt p (if c = p then c0 + 1 else 0) rest

/-- Scan-order index of a position: `y * M + x`. -/
def scanIdx (M : Nat) (p : Pos) : Nat := p.2 * M + p.1

/-- Scan-order index right after a cursor: the start of the cells still to be
examined (`0` for the `-1` sentinel). -/
def succIdx (M : Nat) : Option Pos → Nat
  | none => 0
  | some p => scanIdx M p + 1

/-- Largest possible run-potential contribution of a line of length `t`:
`Phi t = 2 + 3 + ... + (t + 1)`. -/
def Phi : Nat → Nat
  | 0 => 0
  | t + 1 => Phi t + (t + 2)

/-- Potential of an evaluation state: accumulated score magnitude plus both
open run scores. -/
def evalPot (st : EvalSt) : Nat := st.acc.natAbs + st.runScore1 + st.runScore2

/-- Sum `(p0 + 2) + (p0 + 3) + ... ` over `L` terms: the most the potential
can grow over `L` cells when the piece counters start at `p0`. -/
def PhiFrom (p0 : Nat) : Nat → Nat
  | 0 => 0
  | L + 1 => (p0 + 2) + PhiFrom (p0 + 1) L

/-- Upper bound for the magnitude of the piece-location term. -/
def posBound (M N : Nat) : Nat :=
  ((List.range M).map (fun x =>
    ((List.range N).map (fun y =>
      if M / 3 ≤ x ∧ x < M - M / 3 ∧ N / 3 ≤ y ∧ y < N - N / 3 then (2 : Nat) else 1)).sum)).sum

/-- Upper bound for the magnitude of the run-potential terms: `Phi` of each
line length, summed over all lines. -/
def runBound (M N : Nat) : Nat :=
  N * Phi M + M * Phi N
    + ((List.range (M + N - 1)).map (fun i => Phi (diag1Z N i - diag1J M i))).sum
    + ((List.range (M + N - 1)).map (fun i => Phi (diag2Z M N i - diag2J N i))).sum

/-- Upper bound for the magnitude of `evaluateBoard`. -/
def evalBound (M N : Nat) : Nat := posBound M N + runBound M N

theorem calcLoop_le (B i opn s : Nat) : calcLoop B i opn s ≤ 20 := by
  rw [calcLoop]
  split
  · split
    · omega
    · split
      · omega
      · exact calcLoop_le B (i + 1) (opn - 1) (s * (opn - 1))
  · exact le_refl 20
termination_by 20 - i

theorem calcLoop_run (B n : Nat) (hB : ∀ j < 19, searchedSeq n j < B) :
    ∀ m k, m = 18 - k → k ≤ 18 → k ≤ n →
      calcLoop B (k + 1) (n - k) (searchedSeq n k) = if n ≤ 18 then n else 20 := by
  intro m
  induction m with
  | zero =>
    intro k hm hk18 hkn
    have hk : k = 18 := by omega
    subst hk
    rw [calcLoop, if_pos (show 18 + 1 < 20 by omega)]
    by_cases h0 : n - 18 = 0
    · rw [if_pos h0, if_pos (show n ≤ 18 by omega)]
      omega
    · have hs : searchedSeq n 18 < B := hB 18 (by omega)
      rw [if_neg h0, if_neg (Nat.not_le.mpr hs)]
      rw [calcLoop, if_neg (show ¬ 18 + 1 + 1 < 20 by omega)]
      rw [if_neg (show ¬ n ≤ 18 by omega)]
  | succ m ih =>
    intro k hm hk18 hkn
    have hklt : k < 18 := by omega
    rw [calcLoop, if_pos (show k + 1 < 20 by omega)]
    by_cases h0 : n - k = 0
    · rw [if_pos h0, if_pos (show n ≤ 18 by omega)]
      omega
    · have hs : searchedSeq n k < B := hB k (by omega)
      rw [if_neg h0, if_neg (Nat.not_le.mpr hs)]
      have h1 : n - k - 1 = n - (k + 1) := by omega
      rw [h1]
      have h2 : searchedSeq n k * (n - (k + 1)) = searchedSeq n (k + 1) := rfl
      rw [h2]
      exact ih (k + 1) (by omega) (by omega) (by omega)

/-- C8 first conjunct holds unconditionally: an empty board yields depth 0. -/
theorem calculateDepth_zero (B : Nat) : calculateDepth 0 B = 0 := by
  rw [calculateDepth, calcLoop]
  norm_num

/-- C8 counterexample: with 19 empty cells and a budget so large that the
projected node count never reaches it, `calculateDepth` returns 20 and not
`min 19 20 = 19` as the claim states. -/
theorem claim_C8_counterexample :
    (∀ j < 19, searchedSeq 19 j < 10 ^ 18) ∧
      calculateDepth 19 (10 ^ 18) ≠ min 19 20 := by
  refine ⟨by decide, ?_⟩
  have h := calcLoop_run (10 ^ 18) 19 (by decide) 18 0 rfl (by omega) (by omega)
  simp only [calculateDepth]
  simp only [searchedSeq, Nat.sub_zero] at h
  rw [h]
  decide

/-- C8 (corrected): `calculateDepth 0 B = 0` for every budget; when the budget
is large enough that the projected node count never reaches it, the result is
`n` for `n ≤ 18` empty cells and `20` for `n ≥ 19` (not `min n 20`, which
differs at `n = 19`); and for all inputs the result never exceeds 20. -/
theorem claim_C8 (n B : Nat) (hB : ∀ j < 19, searchedSeq n j < B) :
    calculateDepth 0 B = 0 ∧
      calculateDepth n B = (if n ≤ 18 then n else 20) ∧
      ∀ n' B', calculateDepth n' B' ≤ 20 := by
  refine ⟨calculateDepth_zero B, ?_, fun n' B' => calcLoop_le B' 1 n' n'⟩
  have h := calcLoop_run B n hB 18 0 rfl (by omega) (by omega)
  simp only [searchedSeq, Nat.sub_zero] at h
  exact h

/-- Witness for C8 at `n = 5` with a large budget. -/
theorem claim_C8_witness :
    (∀ j < 19, searchedSeq 5 j < 10 ^ 9) ∧
      (calculateDepth 0 (10 ^ 9) = 0 ∧
        calculateDepth 5 (10 ^ 9) = (if 5 ≤ 18 then 5 else 20) ∧
        ∀ n' B', calculateDepth n' B' ≤ 20) :=
  ⟨by decide, claim_C8 5 (10 ^ 9) (by decide)⟩

/-- C10 counterexample: on the board with `M = 1`, `N = 2`, `K = 2` whose
single active column holds two own stones, the primary `checkWin` reports a
win for us while the prototype (whose column phase has its loop bounds
swapped) reports a tie. -/
theorem claim_C10_counterexample :
    checkWin 1 2 2 (fun x y => if x = 0 ∧ y < 2 then Cell.cus else Cell.cnone) = WinRes.wus ∧
      checkWinProto 1 2 2 (fun x y => if x = 0 ∧ y < 2 then Cell.cus else Cell.cnone) =
        WinRes.wtie :=
  ⟨by decide, by decide⟩

/-- C10 (corrected): the prototype `checkWin` agrees with the primary one on
every board and every `K` whenever `M = N` (the swapped column-phase bounds
are then harmless); for `M ≠ N` the two can disagree. -/
theorem claim_C10 (M N K : Nat) (b : Board) (hMN : M = N) :
    checkWinProto M N K b = checkWin M N K b := by
  subst hMN
  rfl

/-- Witness for C10 on a concrete square board. -/
theorem claim_C10_witness :
    checkWinProto 2 2 2 (fun _ _ => Cell.cnone) = checkWin 2 2 2 (fun _ _ => Cell.cnone) :=
  claim_C10 2 2 2 (fun _ _ => Cell.cnone) rfl

/-- C6: the fourth candidate block of `basicSolve` computes exactly the same
move as the third (it has no third-level probe on the forking side), and
removing it leaves the result of `basicSolve` unchanged on every input. -/
theorem claim_C6 (M N K : Nat) (b : Board) :
    block4 M N K b = block3 M N K b ∧
      basicSolve M N K b = basicSolveNoFourth M N K b := by
  refine ⟨rfl, ?_⟩
  unfold basicSolve basicSolveNoFourth
  rw [show block4 M N K b = block3 M N K b from rfl]
  rcases block1 M N K b with _ | q1
  · rcases block2 M N K b with _ | q2
    · rcases block3 M N K b with _ | q3 <;> rfl
    · rfl
  · rfl

theorem sum_map_neg (l : List Int) : (l.map (fun a => -a)).sum = -l.sum := by
  induction l with
  | nil => simp
  | cons a rest ih => simp [ih]; ring

theorem sum_map_neg2 {α : Type} (l : List α) (f : α → Int) :
    (l.map (fun a => -f a)).sum = -(l.map f).sum := by
  induction l with
  | nil => simp
  | cons a rest ih => simp [ih]; ring

theorem cellSwap_swap (c : Cell) : cellSwap (cellSwap c) = c := by
  cases c <;> rfl

theorem stSwap_init : stSwap evalInit = evalInit := by
  simp [stSwap, evalInit]

theorem evalStep_swap (K : Nat) (st : EvalSt) (c : Cell) :
    evalStep K (stSwap st) (cellSwap c) = stSwap (evalStep K st c) := by
  cases c <;>
    simp only [cellSwap, evalStep, stSwap] <;>
    split <;>
    simp [EvalSt.mk.injEq] <;>
    ring

theorem foldl_evalStep_swap (K : Nat) (cells : List Cell) (st : EvalSt) :
    (cells.map cellSwap).foldl (evalStep K) (stSwap st) = stSwap (cells.foldl (evalStep K) st) := by
  induction cells generalizing st with
  | nil => rfl
  | cons c rest ih =>
    simp only [List.map_cons, List.foldl_cons, evalStep_swap]
    exact ih (evalStep K st c)

theorem evalEndRun_swap (K : Nat) (st : EvalSt) :
    evalEndRun K (stSwap st) = -evalEndRun K st := by
  simp only [evalEndRun, stSwap]
  split <;> split <;> ring

theorem evalLine_swap (K : Nat) (cells : List Cell) :
    evalLine K (cells.map cellSwap) = -evalLine K cells := by
  simp only [evalLine]
  conv_lhs => rw [← stSwap_init]
  rw [foldl_evalStep_swap, evalEndRun_swap]

theorem rowCells_swap (M : Nat) (b : Board) (y : Nat) :
    rowCells M (boardSwap b) y = (rowCells M b y).map cellSwap := by
  simp [rowCells, boardSwap, List.map_map, Function.comp]

theorem colCells_swap (N : Nat) (b : Board) (x : Nat) :
    colCells N (boardSwap b) x = (colCells N b x).map cellSwap := by
  simp [colCells, boardSwap, List.map_map, Function.comp]

theorem diag1Cells_swap (M N : Nat) (b : Board) (i : Nat) :
    diag1Cells M N (boardSwap b) i = (diag1Cells M N b i).map cellSwap := by
  simp [diag1Cells, boardSwap, List.map_map, Function.comp]

theorem diag2Cells_swap (M N : Nat) (b : Board) (i : Nat) :
    diag2Cells M N (boardSwap b) i = (diag2Cells M N b i).map cellSwap := by
  simp [diag2Cells, boardSwap, List.map_map, Function.comp]

theorem lineSum_swap (K : Nat) (ls ls' : List (List Cell))
    (h : ls' = ls.map (fun l => l.map cellSwap)) :
    (ls'.map (evalLine K)).sum = -((ls.map (evalLine K)).sum) := by
  subst h
  rw [List.map_map]
  have h2 : ∀ l ∈ ls, (evalLine K ∘ fun l => l.map cellSwap) l = (fun l => -evalLine K l) l := by
    intro l _
    exact evalLine_swap K l
  rw [List.map_congr_left h2, sum_map_neg2]

theorem posCell_swap (v : Int) (c : Cell) :
    (if cellSwap c = Cell.cus then v else if cellSwap c = Cell.cthem then -v else 0)
      = -(if c = Cell.cus then v else if c = Cell.cthem then -v else 0) := by
  cases c <;> simp [cellSwap]

theorem positionalScore_swap (M N : Nat) (b : Board) :
    positionalScore M N (boardSwap b) = -positionalScore M N b := by
  simp only [positionalScore]
  have inner : ∀ x,
      ((List.range N).map (fun y =>
        if boardSwap b x y = Cell.cus then posValue M N x y
        else if boardSwap b x y = Cell.cthem then -(posValue M N x y) else 0)).sum
      = -((List.range N).map (fun y =>
        if b x y = Cell.cus then posValue M N x y
        else if b x y = Cell.cthem then -(posValue M N x y) else 0)).sum := by
    intro x
    have pointwise : ∀ y ∈ List.range N,
        (if boardSwap b x y = Cell.cus then posValue M N x y
          else if boardSwap b x y = Cell.cthem then -(posValue M N x y) else 0)
        = (fun y => -(if b x y = Cell.cus then posValue M N x y
            else if b x y = Cell.cthem then -(posValue M N x y) else 0)) y := by
      intro y _
      exact posCell_swap (posValue M N x y) (b x y)
    rw [List.map_congr_left pointwise, sum_map_neg2]
  rw [List.map_congr_left (fun x _ => inner x), sum_map_neg2]

/-- C2: the static evaluator is perfectly anti-symmetric; swapping every own
stone with an opponent stone negates `evaluateBoard` exactly. -/
theorem claim_C2 (M N K : Nat) (b : Board) :
    evaluateBoard M N K (boardSwap b) = -evaluateBoard M N K b := by
  simp only [evaluateBoard]
  rw [positionalScore_swap,
    lineSum_swap K (rowLines M N b) (rowLines M N (boardSwap b)) (by
      simp only [rowLines, List.map_map]
      exact List.map_congr_left (fun y _ => rowCells_swap M b y)),
    lineSum_swap K (colLines M N b) (colLines M N (boardSwap b)) (by
      simp only [colLines, List.map_map]
      exact List.map_congr_left (fun x _ => colCells_swap N b x)),
    lineSum_swap K (diag1Lines M N b) (diag1Lines M N (boardSwap b)) (by
      simp only [diag1Lines, List.map_map]
      exact List.map_congr_left (fun i _ => diag1Cells_swap M N b i)),
    lineSum_swap K (diag2Lines M N b) (diag2Lines M N (boardSwap b)) (by
      simp only [diag2Lines, List.map_map]
      exact List.map_congr_left (fun i _ => diag2Cells_swap M N b i))]
  ring

theorem flatMapRange_length {α : Type} (n m : Nat) (f : Nat → List α)
    (h : ∀ y, (f y).length = m) : ((List.range n).flatMap f).length = n * m := by
  induction n with
  | zero => simp
  | succ n ih =>
    rw [List.range_succ, List.flatMap_append, List.length_append, ih]
    simp [h n]
    ring

theorem flatMapRange_getElem {α : Type} (n m : Nat) (f : Nat → List α)
    (h : ∀ y, (f y).length = m) (x y : Nat) (hx : x < m) (hy : y < n) :
    ((List.range n).flatMap f)[y * m + x]? = (f y)[x]? := by
  induction n with
  | zero => omega
  | succ n ih =>
    rw [List.range_succ, List.flatMap_append]
    rw [show (([n] : List Nat).flatMap f) = f n by simp]
    by_cases hy2 : y < n
    · rw [List.getElem?_append_left]
      · exact ih hy2
      · rw [flatMapRange_length n m f h]
        have h1 : (y + 1) * m ≤ n * m := Nat.mul_le_mul_right m (by omega)
        have h2 : y * m + x < (y + 1) * m := by rw [Nat.succ_mul]; omega
        omega
    · have hyn : y = n := by omega
      subst hyn
      rw [List.getElem?_append_right]
      · rw [flatMapRange_length y m f h]
        congr 1
        omega
      · rw [flatMapRange_length y m f h]
        omega

theorem allPos_length (M N : Nat) : (allPos M N).length = N * M := by
  apply flatMapRange_length
  intro y
  simp

theorem allPos_getElem (M N x y : Nat) (hx : x < M) (hy : y < N) :
    (allPos M N)[y * M + x]? = some (x, y) := by
  rw [allPos, flatMapRange_getElem N M _ (fun y => by simp) x y hx hy]
  simp [hx]

theorem idx_lt (M N x y : Nat) (hx : x < M) (hy : y < N) : y * M + x < N * M := by
  have h1 : (y + 1) * M ≤ N * M := Nat.mul_le_mul_right M (by omega)
  have h2 : y * M + x < (y + 1) * M := by rw [Nat.succ_mul]; omega
  omega

theorem allPos_getElem_inv (M N j : Nat) (q : Pos) (h : (allPos M N)[j]? = some q) :
    q.2 * M + q.1 = j ∧ q.1 < M ∧ q.2 < N := by
  have hj : j < (allPos M N).length := by
    by_contra hc
    rw [List.getElem?_eq_none (by omega)] at h
    exact Option.noConfusion h
  rw [allPos_length] at hj
  have hM : 1 ≤ M := by
    rcases Nat.eq_zero_or_pos M with h0 | h1
    · subst h0; omega
    · exact h1
  have hx : j % M < M := Nat.mod_lt _ (by omega)
  have hy : j / M < N := by
    rw [Nat.div_lt_iff_lt_mul (by omega)]
    omega
  have hid : j / M * M + j % M = j := by
    rw [Nat.mul_comm]
    exact Nat.div_add_mod j M
  have h2 := allPos_getElem M N (j % M) (j / M) hx hy
  rw [hid] at h2
  rw [h] at h2
  have hq : q = (j % M, j / M) := Option.some.inj h2
  subst hq
  exact ⟨hid, hx, hy⟩

theorem allPos_drop_cons (M N x y : Nat) (hx : x < M) (hy : y < N) :
    (allPos M N).drop (y * M + x) = (x, y) :: (allPos M N).drop (y * M + x + 1) := by
  have hlt : y * M + x < (allPos M N).length := by
    rw [allPos_length]; exact idx_lt M N x y hx hy
  rw [List.drop_eq_getElem_cons hlt]
  congr 1
  have h := allPos_getElem M N x y hx hy
  rw [List.getElem?_eq_getElem hlt] at h
  exact Option.some.inj h

theorem mem_allPos_bounds (M N : Nat) (p : Pos) (h : p ∈ allPos M N) :
    p.1 < M ∧ p.2 < N := by
  rw [List.mem_iff_getElem?] at h
  obtain ⟨j, hj⟩ := h
  exact (allPos_getElem_inv M N j p hj).2

theorem mem_drop_allPos_idx (M N i : Nat) (q : Pos) (h : q ∈ (allPos M N).drop i) :
    i ≤ q.2 * M + q.1 := by
  rw [List.mem_iff_getElem?] at h
  obtain ⟨k, hk⟩ := h
  rw [List.getElem?_drop] at hk
  have := (allPos_getElem_inv M N (i + k) q hk).1
  omega

theorem scanFrom_eq (M N : Nat) (b : Board) (x y : Nat) (hx : x < M) :
    scanFrom M N b x y =
      ((allPos M N).drop (y * M + x)).find? (fun p => decide (b p.1 p.2 = Cell.cnone)) := by
  rw [scanFrom]
  by_cases hy : y < N
  · rw [if_pos hy, allPos_drop_cons M N x y hx hy]
    by_cases hc : b x y = Cell.cnone
    · rw [if_pos hc, List.find?_cons_of_pos _ (by simpa using hc)]
    · rw [if_neg hc, List.find?_cons_of_neg _ (by simpa using hc)]
      by_cases hx1 : x + 1 < M
      · rw [if_pos hx1, scanFrom_eq M N b (x + 1) y hx1,
          show y * M + (x + 1) = y * M + x + 1 from rfl]
      · rw [if_neg hx1, scanFrom_eq M N b 0 (y + 1) (by omega),
          show (y + 1) * M + 0 = y * M + x + 1 by rw [Nat.succ_mul]; omega]
  · rw [if_neg hy]
    symm
    rw [List.drop_eq_nil_of_le, List.find?_nil]
    rw [allPos_length]
    have h1 : N * M ≤ y * M := Nat.mul_le_mul_right M (by omega)
    omega
termination_by (N - y, M - x)

theorem nextPosition_none_eq (M N : Nat) (b : Board) (hM : 1 ≤ M) :
    nextPosition M N b none =
      (allPos M N).find? (fun p => decide (b p.1 p.2 = Cell.cnone)) := by
  have h := scanFrom_eq M N b 0 0 (by omega)
  simpa [nextPosition] using h

theorem nextPosition_some_eq (M N : Nat) (b : Board) (x y : Nat) (hx : x < M) (hy : y < N) :
    nextPosition M N b (some (x, y)) =
      ((allPos M N).drop (y * M + x + 1)).find? (fun p => decide (b p.1 p.2 = Cell.cnone)) := by
  show (if x + 1 < M then scanFrom M N b (x + 1) y
    else if y + 1 < N then scanFrom M N b 0 (y + 1) else none) = _
  by_cases h1 : x + 1 < M
  · rw [if_pos h1, scanFrom_eq M N b (x + 1) y h1,
      show y * M + (x + 1) = y * M + x + 1 from rfl]
  · rw [if_neg h1]
    by_cases h2 : y + 1 < N
    · rw [if_pos h2, scanFrom_eq M N b 0 (y + 1) (by omega),
        show (y + 1) * M + 0 = y * M + x + 1 by rw [Nat.succ_mul]; omega]
    · rw [if_neg h2]
      symm
      rw [List.drop_eq_nil_of_le, List.find?_nil]
      rw [allPos_length]
      have h3 : N * M ≤ y * M + M := by
        have : N * M ≤ (y + 1) * M := Nat.mul_le_mul_right M (by omega)
        rw [Nat.succ_mul] at this
        omega
      omega

theorem find?_drop_filter (M N : Nat) (b : Board) (i : Nat) (q : Pos)
    (h : ((allPos M N).drop i).find? (fun p => decide (b p.1 p.2 = Cell.cnone)) = some q) :
    i ≤ q.2 * M + q.1 ∧
      ((allPos M N).drop i).filter (fun p => decide (b p.1 p.2 = Cell.cnone)) =
        q :: ((allPos M N).drop (q.2 * M + q.1 + 1)).filter
          (fun p => decide (b p.1 p.2 = Cell.cnone)) := by
  have hi : i < (allPos M N).length := by
    by_contra hc
    rw [List.drop_eq_nil_of_le (by omega), List.find?_nil] at h
    exact Option.noConfusion h
  rw [allPos_length] at hi
  have hM : 1 ≤ M := by
    rcases Nat.eq_zero_or_pos M with h0 | h1
    · subst h0; omega
    · exact h1
  have hx : i % M < M := Nat.mod_lt _ (by omega)
  have hy : i / M < N := by
    rw [Nat.div_lt_iff_lt_mul (by omega)]
    omega
  have hid : i / M * M + i % M = i := by
    rw [Nat.mul_comm]
    exact Nat.div_add_mod i M
  have hdrop : (allPos M N).drop i = (i % M, i / M) :: (allPos M N).drop (i + 1) := by
    have h2 := allPos_drop_cons M N (i % M) (i / M) hx hy
    rw [hid] at h2
    exact h2
  rw [hdrop] at h ⊢
  by_cases hc : b (i % M) (i / M) = Cell.cnone
  · rw [List.find?_cons_of_pos _ (by simpa using hc)] at h
    have hq : q = (i % M, i / M) := (Option.some.inj h).symm
    subst hq
    rw [List.filter_cons_of_pos (by simpa using hc)]
    refine ⟨by show i ≤ i / M * M + i % M; omega, ?_⟩
    have hidx : (((i % M, i / M) : Pos)).2 * M + (((i % M, i / M) : Pos)).1 + 1 = i + 1 := by
      show i / M * M + i % M + 1 = i + 1
      omega
    rw [hidx]
  · rw [List.find?_cons_of_neg _ (by simpa using hc)] at h
    have ih := find?_drop_filter M N b (i + 1) q h
    rw [List.filter_cons_of_neg (by simpa using hc)]
    exact ⟨by omega, ih.2⟩
termination_by (allPos M N).length - i
decreasing_by
  have hL := allPos_length M N
  omega

theorem posListAux_eq (M N : Nat) (b : Board) (hM : 1 ≤ M) :
    ∀ fuel (cur : Option Pos),
      (∀ x y, cur = some (x, y) → x < M ∧ y < N) →
      (allPos M N).length - succIdx M cur ≤ fuel →
      posListAux M N b fuel cur =
        ((allPos M N).drop (succIdx M cur)).filter
          (fun p => decide (b p.1 p.2 = Cell.cnone)) := by
  intro fuel
  induction fuel with
  | zero =>
    intro cur hvalid hlen
    have hnil : (allPos M N).drop (succIdx M cur) = [] := by
      apply List.eq_nil_of_length_eq_zero
      rw [List.length_drop]
      omega
    rw [hnil, List.filter_nil]
    rfl
  | succ fuel ih =>
    intro cur hvalid hlen
    have hnext : nextPosition M N b cur =
        ((allPos M N).drop (succIdx M cur)).find?
          (fun p => decide (b p.1 p.2 = Cell.cnone)) := by
      cases cur with
      | none => simpa [succIdx] using nextPosition_none_eq M N b hM
      | some p =>
        obtain ⟨hx, hy⟩ := hvalid p.1 p.2 (by simp)
        have h := nextPosition_some_eq M N b p.1 p.2 hx hy
        simpa [succIdx, scanIdx] using h
    rw [posListAux, hnext]
    cases hfind : ((allPos M N).drop (succIdx M cur)).find?
        (fun p => decide (b p.1 p.2 = Cell.cnone)) with
    | none =>
      symm
      rw [List.filter_eq_nil_iff]
      intro p hp
      have := List.find?_eq_none.mp hfind p hp
      simpa using this
    | some q =>
      show q :: posListAux M N b fuel (some q) =
        ((allPos M N).drop (succIdx M cur)).filter (fun p => decide (b p.1 p.2 = Cell.cnone))
      obtain ⟨hle, hfilter⟩ := find?_drop_filter M N b (succIdx M cur) q hfind
      rw [hfilter]
      congr 1
      have hqmem : q ∈ allPos M N :=
        List.mem_of_mem_drop (List.mem_of_find?_eq_some hfind)
      have hqb := mem_allPos_bounds M N q hqmem
      have h2 := ih (some q) (fun x y hxy => by
        cases hxy
        exact hqb) (by
        simp only [succIdx, scanIdx]
        rw [allPos_length] at hlen ⊢
        omega)
      simp only [succIdx, scanIdx] at h2
      exact h2

theorem posList_eq_filter (M N : Nat) (b : Board) (hM : 1 ≤ M) :
    posList M N b =
      (allPos M N).filter (fun p => decide (b p.1 p.2 = Cell.cnone)) := by
  have h := posListAux_eq M N b hM (M * N) none (by intro x y h; exact Option.noConfusion h)
    (by simp [succIdx, allPos_length, Nat.mul_comm])
  simpa [posList, succIdx] using h

theorem filter_map_row (b : Board) (y : Nat) (l : List Nat) :
    (l.map (fun x => ((x, y) : Pos))).filter (fun p => decide (b p.1 p.2 = Cell.cnone)) =
      l.filterMap (fun x => if b x y = Cell.cnone then some ((x, y) : Pos) else none) := by
  induction l with
  | nil => rfl
  | cons a rest ih =>
    by_cases hc : b a y = Cell.cnone
    · simp only [List.map_cons, List.filter_cons, List.filterMap_cons, hc]
      simp [ih]
    · simp only [List.map_cons, List.filter_cons, List.filterMap_cons, hc]
      simp [hc, ih]

theorem filter_allPos (M N : Nat) (b : Board) :
    (allPos M N).filter (fun p => decide (b p.1 p.2 = Cell.cnone)) = activeEmpty M N b := by
  rw [allPos, activeEmpty, List.filter_flatMap]
  have hfun : (fun y => ((List.range M).map (fun x => ((x, y) : Pos))).filter
        (fun p => decide (b p.1 p.2 = Cell.cnone)))
      = (fun y => (List.range M).filterMap
        (fun x => if b x y = Cell.cnone then some ((x, y) : Pos) else none)) := by
    funext y
    exact filter_map_row b y (List.range M)
  rw [hfun]

theorem posList_eq_activeEmpty (M N : Nat) (b : Board) (hM : 1 ≤ M) :
    posList M N b = activeEmpty M N b := by
  rw [posList_eq_filter M N b hM, filter_allPos]

/-- C7: starting from the `-1` cursor sentinel, iterating `nextPosition`
yields exactly the empty cells of the active region, in scan order with `x`
varying fastest, each exactly once and nothing else; after the last of them,
`nextPosition` signals exhaustion. -/
theorem claim_C7 (M N : Nat) (b : Board) (hM : 1 ≤ M) (hN : 1 ≤ N) :
    posList M N b = activeEmpty M N b ∧
      ∀ p, (activeEmpty M N b).getLast? = some p → nextPosition M N b (some p) = none := by
  refine ⟨posList_eq_activeEmpty M N b hM, ?_⟩
  intro p hlast
  have hmem : p ∈ activeEmpty M N b := by
    obtain ⟨hne, hp⟩ := List.mem_getLast?_eq_getLast (Option.mem_def.mpr hlast)
    rw [hp]
    exact List.getLast_mem hne
  rw [← filter_allPos] at hmem
  have hmem2 := List.mem_filter.mp hmem
  have hb := mem_allPos_bounds M N p hmem2.1
  obtain ⟨x, y⟩ := p
  rw [nextPosition_some_eq M N b x y hb.1 hb.2]
  cases hfind : ((allPos M N).drop (y * M + x + 1)).find?
      (fun p => decide (b p.1 p.2 = Cell.cnone)) with
  | none => rfl
  | some q =>
    exfalso
    obtain ⟨hle, hfilter⟩ := find?_drop_filter M N b (y * M + x + 1) q hfind
    have hsplit : activeEmpty M N b =
        ((allPos M N).take (y * M + x + 1)).filter (fun p => decide (b p.1 p.2 = Cell.cnone))
          ++ ((allPos M N).drop (y * M + x + 1)).filter
            (fun p => decide (b p.1 p.2 = Cell.cnone)) := by
      rw [← List.filter_append, List.take_append_drop, filter_allPos]
    rw [hsplit, List.getLast?_append, hfilter] at hlast
    have hcons := List.getLast?_eq_getLast_of_ne_nil
      (show (q :: ((allPos M N).drop (q.2 * M + q.1 + 1)).filter
        (fun p => decide (b p.1 p.2 = Cell.cnone))) ≠ [] by simp)
    rw [hcons] at hlast
    have hr : (q :: ((allPos M N).drop (q.2 * M + q.1 + 1)).filter
        (fun p => decide (b p.1 p.2 = Cell.cnone))).getLast (by simp) = (x, y) := by
      simpa using hlast
    have hpmem : ((x, y) : Pos) ∈ q :: ((allPos M N).drop (q.2 * M + q.1 + 1)).filter
        (fun p => decide (b p.1 p.2 = Cell.cnone)) := by
      rw [← hr]
      exact List.getLast_mem _
    rw [← hfilter] at hpmem
    have hpd : ((x, y) : Pos) ∈ (allPos M N).drop (y * M + x + 1) :=
      (List.mem_filter.mp hpmem).1
    have hcontra := mem_drop_allPos_idx M N (y * M + x + 1) (x, y) hpd
    simp only at hcontra
    omega

/-- Witness for C7: on the fully empty 2-by-2 board the enumeration yields
exactly (0,0), (1,0), (0,1), (1,1) in that order and then exhausts. -/
theorem claim_C7_witness :
    (1 ≤ 2 ∧ posList 2 2 (fun _ _ => Cell.cnone) = [(0, 0), (1, 0), (0, 1), (1, 1)]) ∧
      nextPosition 2 2 (fun _ _ => Cell.cnone) (some (1, 1)) = none := by
  have h := claim_C7 2 2 (fun _ _ => Cell.cnone) (by decide) (by decide)
  refine ⟨⟨by decide, ?_⟩, ?_⟩
  · rw [h.1]
    decide
  · apply h.2
    decide

theorem findSome?_eq_some_iff {α β : Type} (l : List α) (f : α → Option β) (v : β) :
    l.findSome? f = some v ↔
      ∃ i : Nat, ∃ a : α, l[i]? = some a ∧ f a = some v ∧
        ∀ j : Nat, j < i → ∀ a', l[j]? = some a' → f a' = none := by
  induction l with
  | nil =>
    simp only [List.findSome?_nil, List.getElem?_nil]
    constructor
    · intro h
      exact Option.noConfusion h
    · rintro ⟨i, a, hia, _⟩
      exact Option.noConfusion hia
  | cons c rest ih =>
    rw [List.findSome?_cons]
    cases hc : f c with
    | some w =>
      constructor
      · intro h
        exact ⟨0, c, by simp, hc.trans h, fun j hj a' _ => absurd hj (Nat.not_lt_zero j)⟩
      · rintro ⟨i, a, hia, hfa, hprev⟩
        cases i with
        | zero =>
          have ha : a = c := by
            simp only [List.getElem?_cons_zero] at hia
            exact (Option.some.inj hia).symm
          subst ha
          rw [hfa] at hc
          exact hc ▸ rfl
        | succ i =>
          have := hprev 0 (Nat.succ_pos i) c (by simp)
          rw [this] at hc
          exact Option.noConfusion hc
    | none =>
      rw [ih]
      constructor
      · rintro ⟨i, a, hia, hfa, hprev⟩
        refine ⟨i + 1, a, by simpa using hia, hfa, ?_⟩
        intro j hj a' hja'
        cases j with
        | zero =>
          have ha' : a' = c := by
            simp only [List.getElem?_cons_zero] at hja'
            exact (Option.some.inj hja').symm
          subst ha'
          exact hc
        | succ j =>
          exact hprev j (by omega) a' (by simpa using hja')
      · rintro ⟨i, a, hia, hfa, hprev⟩
        cases i with
        | zero =>
          have ha : a = c := by
            simp only [List.getElem?_cons_zero] at hia
            exact (Option.some.inj hia).symm
          subst ha
          rw [hfa] at hc
          exact Option.noConfusion hc
        | succ i =>
          refine ⟨i, a, by simpa using hia, hfa, ?_⟩
          intro j hj a' hja'
          exact hprev (j + 1) (by omega) a' (by simpa using hja')

theorem findSome?_range_eq_some {β : Type} (n : Nat) (f : Nat → Option β) (v : β) :
    (List.range n).findSome? f = some v ↔
      ∃ t, t < n ∧ f t = some v ∧ ∀ t', t' < t → f t' = none := by
  rw [findSome?_eq_some_iff]
  constructor
  · rintro ⟨i, a, hia, hfa, hprev⟩
    have hin : i < n := by
      by_contra hc
      rw [List.getElem?_eq_none (by simpa using hc)] at hia
      exact Option.noConfusion hia
    have ha : a = i := by
      rw [List.getElem?_range hin] at hia
      exact (Option.some.inj hia).symm
    rw [ha] at hfa
    refine ⟨i, hin, hfa, ?_⟩
    intro t' ht'
    exact hprev t' ht' t' (List.getElem?_range (by omega))
  · rintro ⟨t, htn, hft, hprev⟩
    refine ⟨t, t, List.getElem?_range htn, hft, ?_⟩
    intro j hj a' hja'
    have ha' : a' = j := by
      rw [List.getElem?_range (by omega)] at hja'
      exact (Option.some.inj hja').symm
    rw [ha']
    exact hprev j hj

theorem findSome?_map {α β γ : Type} (g : α → β) (f : β → Option γ) (l : List α) :
    (l.map g).findSome? f = l.findSome? (fun a => f (g a)) := by
  induction l with
  | nil => rfl
  | cons a rest ih =>
    rw [List.map_cons, List.findSome?_cons, List.findSome?_cons]
    cases f (g a) <;> simp [ih]

theorem cnt_append_one (p : Cell) (xs : List Cell) (c : Cell) : ∀ c0,
    cnt p c0 (xs ++ [c]) = if c = p then cnt p c0 xs + 1 else 0 := by
  induction xs with
  | nil => intro c0; simp [cnt]
  | cons a rest ih =>
    intro c0
    simp only [List.cons_append, cnt]
    exact ih _

theorem cnt_ge_iff (p : Cell) (xs : List Cell) :
    ∀ K, 1 ≤ K →
      (K ≤ cnt p 0 xs ↔
        K ≤ xs.length ∧ ∀ s, s < K → xs[xs.length - 1 - s]? = some p) := by
  induction xs using List.reverseRecOn with
  | nil =>
    intro K hK
    simp [cnt]
    omega
  | append_singleton xs c ih =>
    intro K hK
    rw [cnt_append_one]
    have hlen : (xs ++ [c]).length = xs.length + 1 := by simp
    by_cases hc : c = p
    · rw [if_pos hc]
      rcases Nat.eq_or_lt_of_le hK with hK1 | hK2
      · constructor
        · intro _
          refine ⟨by omega, ?_⟩
          intro s hs
          have hs0 : s = 0 := by omega
          subst hs0
          rw [show (xs ++ [c]).length - 1 - 0 = xs.length by simp]
          rw [List.getElem?_concat_length, hc]
        · intro _
          omega
      · have ihK := ih (K - 1) (by omega)
        constructor
        · intro h
          obtain ⟨hl, hall⟩ := ihK.mp (by omega)
          refine ⟨by omega, ?_⟩
          intro s hs
          cases s with
          | zero =>
            rw [show (xs ++ [c]).length - 1 - 0 = xs.length by simp]
            rw [List.getElem?_concat_length, hc]
          | succ s' =>
            rw [show (xs ++ [c]).length - 1 - (s' + 1) = xs.length - 1 - s' by simp; omega]
            rw [List.getElem?_append_left (by omega)]
            exact hall s' (by omega)
        · rintro ⟨hKl, hall⟩
          have h2 : K - 1 ≤ xs.length := by omega
          have h3 : ∀ s, s < K - 1 → xs[xs.length - 1 - s]? = some p := by
            intro s hs
            have h4 := hall (s + 1) (by omega)
            rw [show (xs ++ [c]).length - 1 - (s + 1) = xs.length - 1 - s by simp; omega] at h4
            rw [List.getElem?_append_left (by omega)] at h4
            exact h4
          have := ihK.mpr ⟨h2, h3⟩
          omega
    · rw [if_neg hc]
      constructor
      · intro h
        omega
      · rintro ⟨hKl, hall⟩
        exfalso
        have h0 := hall 0 (by omega)
        rw [show (xs ++ [c]).length - 1 - 0 = xs.length by simp] at h0
        rw [List.getElem?_concat_length] at h0
        exact hc (Option.some.inj h0)

theorem cnt_take_iff (K : Nat) (hK : 1 ≤ K) (p : Cell) (l : List Cell) (t : Nat)
    (ht : t < l.length) :
    K ≤ cnt p 0 (l.take (t + 1)) ↔ windowEndAt K p l t := by
  rw [cnt_ge_iff p _ K hK]
  unfold windowEndAt
  have hlen : (l.take (t + 1)).length = t + 1 := by
    rw [List.length_take]
    omega
  rw [hlen]
  constructor
  · rintro ⟨hKt, hall⟩
    refine ⟨hKt, ht, ?_⟩
    intro s hs
    have h := hall s hs
    rw [List.getElem?_take] at h
    rw [show t + 1 - 1 - s = t - s by omega] at h
    rw [if_pos (by omega : t - s < t + 1)] at h
    exact h
  · rintro ⟨hKt, _, hall⟩
    refine ⟨hKt, ?_⟩
    intro s hs
    rw [List.getElem?_take]
    rw [show t + 1 - 1 - s = t - s by omega]
    rw [if_pos (by omega : t - s < t + 1)]
    exact hall s hs

theorem scanLine_eq (K : Nat) (l : List Cell) : ∀ c1 c2,
    scanLine K l c1 c2 =
      (List.range l.length).findSome? (fun t =>
        if K ≤ cnt Cell.cus c1 (l.take (t + 1)) then some WinRes.wus
        else if K ≤ cnt Cell.cthem c2 (l.take (t + 1)) then some WinRes.wthem
        else none) := by
  induction l with
  | nil => intro c1 c2; rfl
  | cons c rest ih =>
    intro c1 c2
    rw [List.length_cons, List.range_succ_eq_map, List.findSome?_cons, findSome?_map]
    have h1 : cnt Cell.cus c1 ((c :: rest).take (0 + 1)) =
        (if c = Cell.cus then c1 + 1 else 0) := by
      simp [cnt]
    have h2 : cnt Cell.cthem c2 ((c :: rest).take (0 + 1)) =
        (if c = Cell.cthem then c2 + 1 else 0) := by
      simp [cnt]
    have hshift : ∀ t : Nat,
        (if K ≤ cnt Cell.cus c1 ((c :: rest).take (Nat.succ t + 1)) then some WinRes.wus
          else if K ≤ cnt Cell.cthem c2 ((c :: rest).take (Nat.succ t + 1)) then some WinRes.wthem
          else none)
        = (if K ≤ cnt Cell.cus (if c = Cell.cus then c1 + 1 else 0) (rest.take (t + 1))
            then some WinRes.wus
          else if K ≤ cnt Cell.cthem (if c = Cell.cthem then c2 + 1 else 0) (rest.take (t + 1))
            then some WinRes.wthem
          else none) := by
      intro t
      rfl
    simp only [scanLine]
    by_cases hus : K ≤ (if c = Cell.cus then c1 + 1 else 0)
    · rw [if_pos hus]
      have hf0 : (if K ≤ cnt Cell.cus c1 ((c :: rest).take (0 + 1)) then some WinRes.wus
          else if K ≤ cnt Cell.cthem c2 ((c :: rest).take (0 + 1)) then some WinRes.wthem
          else none) = some WinRes.wus := by rw [h1, if_pos hus]
      rw [hf0]
    · rw [if_neg hus]
      by_cases hthem : K ≤ (if c = Cell.cthem then c2 + 1 else 0)
      · rw [if_pos hthem]
        have hf0 : (if K ≤ cnt Cell.cus c1 ((c :: rest).take (0 + 1)) then some WinRes.wus
            else if K ≤ cnt Cell.cthem c2 ((c :: rest).take (0 + 1)) then some WinRes.wthem
            else none) = some WinRes.wthem := by rw [h1, if_neg hus, h2, if_pos hthem]
        rw [hf0]
      · rw [if_neg hthem]
        rw [ih]
        have hfun : (fun t => (if K ≤ cnt Cell.cus c1 ((c :: rest).take (Nat.succ t + 1))
              then some WinRes.wus
            else if K ≤ cnt Cell.cthem c2 ((c :: rest).take (Nat.succ t + 1))
              then some WinRes.wthem
            else none))
            = (fun t => (if K ≤ cnt Cell.cus (if c = Cell.cus then c1 + 1 else 0) (rest.take (t + 1))
              then some WinRes.wus
            else if K ≤ cnt Cell.cthem (if c = Cell.cthem then c2 + 1 else 0) (rest.take (t + 1))
              then some WinRes.wthem
            else none)) := by
          funext t
          exact hshift t
        rw [show (if K ≤ cnt Cell.cus c1 ((c :: rest).take (0 + 1)) then some WinRes.wus
            else if K ≤ cnt Cell.cthem c2 ((c :: rest).take (0 + 1)) then some WinRes.wthem
            else none) = none by rw [h1, h2, if_neg hus, if_neg hthem]]
        rw [hfun]

theorem scanLine_none_iff (K : Nat) (hK : 1 ≤ K) (l : List Cell) :
    scanLine K l 0 0 = none ↔
      ∀ t, ¬windowEndAt K Cell.cus l t ∧ ¬windowEndAt K Cell.cthem l t := by
  rw [scanLine_eq, List.findSome?_eq_none]
  constructor
  · intro h t
    by_cases ht : t < l.length
    · have h2 := h t (List.mem_range.mpr ht)
      constructor
      · intro hw
        rw [if_pos ((cnt_take_iff K hK Cell.cus l t ht).mpr hw)] at h2
        exact Option.noConfusion h2
      · intro hw
        by_cases hus : K ≤ cnt Cell.cus 0 (l.take (t + 1))
        · rw [if_pos hus] at h2
          exact Option.noConfusion h2
        · rw [if_neg hus, if_pos ((cnt_take_iff K hK Cell.cthem l t ht).mpr hw)] at h2
          exact Option.noConfusion h2
    · constructor <;> exact fun hw => ht hw.2.1
  · intro h t htm
    have ht := List.mem_range.mp htm
    rw [if_neg, if_neg]
    · intro hc
      exact (h t).2 ((cnt_take_iff K hK Cell.cthem l t ht).mp hc)
    · intro hc
      exact (h t).1 ((cnt_take_iff K hK Cell.cus l t ht).mp hc)

theorem scanLine_wus_intro (K : Nat) (hK : 1 ≤ K) (l : List Cell) (t : Nat)
    (hus : windowEndAt K Cell.cus l t)
    (hbefore : ∀ t', t' < t → ¬windowEndAt K Cell.cus l t' ∧ ¬windowEndAt K Cell.cthem l t') :
    scanLine K l 0 0 = some WinRes.wus := by
  have htl : t < l.length := hus.2.1
  rw [scanLine_eq, findSome?_range_eq_some]
  refine ⟨t, hus.2.1, ?_, ?_⟩
  · rw [if_pos ((cnt_take_iff K hK Cell.cus l t hus.2.1).mpr hus)]
  · intro t' ht'
    rw [if_neg, if_neg]
    · intro hc
      exact (hbefore t' ht').2 ((cnt_take_iff K hK Cell.cthem l t' (by omega)).mp hc)
    · intro hc
      exact (hbefore t' ht').1 ((cnt_take_iff K hK Cell.cus l t' (by omega)).mp hc)

theorem scanLine_wthem_intro (K : Nat) (hK : 1 ≤ K) (l : List Cell) (t : Nat)
    (hthem : windowEndAt K Cell.cthem l t) (hnus : ¬windowEndAt K Cell.cus l t)
    (hbefore : ∀ t', t' < t → ¬windowEndAt K Cell.cus l t' ∧ ¬windowEndAt K Cell.cthem l t') :
    scanLine K l 0 0 = some WinRes.wthem := by
  have htl : t < l.length := hthem.2.1
  rw [scanLine_eq, findSome?_range_eq_some]
  refine ⟨t, hthem.2.1, ?_, ?_⟩
  · rw [if_neg, if_pos ((cnt_take_iff K hK Cell.cthem l t hthem.2.1).mpr hthem)]
    intro hc
    exact hnus ((cnt_take_iff K hK Cell.cus l t hthem.2.1).mp hc)
  · intro t' ht'
    rw [if_neg, if_neg]
    · intro hc
      exact (hbefore t' ht').2 ((cnt_take_iff K hK Cell.cthem l t' (by omega)).mp hc)
    · intro hc
      exact (hbefore t' ht').1 ((cnt_take_iff K hK Cell.cus l t' (by omega)).mp hc)

theorem scanLine_wus_elim (K : Nat) (hK : 1 ≤ K) (l : List Cell)
    (h : scanLine K l 0 0 = some WinRes.wus) : ∃ t, windowEndAt K Cell.cus l t := by
  rw [scanLine_eq, findSome?_range_eq_some] at h
  obtain ⟨t, htl, hft, _⟩ := h
  refine ⟨t, ?_⟩
  by_cases hus : K ≤ cnt Cell.cus 0 (l.take (t + 1))
  · exact (cnt_take_iff K hK Cell.cus l t (List.mem_range.mp (List.mem_range.mpr htl))).mp hus
  · exfalso
    rw [if_neg hus] at hft
    by_cases hthem : K ≤ cnt Cell.cthem 0 (l.take (t + 1))
    · rw [if_pos hthem] at hft
      exact WinRes.noConfusion (Option.some.inj hft)
    · rw [if_neg hthem] at hft
      exact Option.noConfusion hft

theorem scanLine_wthem_elim (K : Nat) (hK : 1 ≤ K) (l : List Cell)
    (h : scanLine K l 0 0 = some WinRes.wthem) : ∃ t, windowEndAt K Cell.cthem l t := by
  rw [scanLine_eq, findSome?_range_eq_some] at h
  obtain ⟨t, htl, hft, _⟩ := h
  refine ⟨t, ?_⟩
  by_cases hus : K ≤ cnt Cell.cus 0 (l.take (t + 1))
  · exfalso
    rw [if_pos hus] at hft
    exact WinRes.noConfusion (Option.some.inj hft)
  · rw [if_neg hus] at hft
    by_cases hthem : K ≤ cnt Cell.cthem 0 (l.take (t + 1))
    · exact (cnt_take_iff K hK Cell.cthem l t htl).mp hthem
    · exfalso
      rw [if_neg hthem] at hft
      exact Option.noConfusion hft

theorem kRun_range_map (K : Nat) (p : Cell) (n : Nat) (g : Nat → Cell) :
    kRun K p ((List.range n).map g) ↔ ∃ i, i + K ≤ n ∧ ∀ t, t < K → g (i + t) = p := by
  unfold kRun
  rw [List.length_map, List.length_range]
  constructor
  · rintro ⟨i, hiK, hall⟩
    refine ⟨i, hiK, ?_⟩
    intro t ht
    have h := hall t ht
    rw [List.getElem?_map, List.getElem?_range (by omega)] at h
    simpa using h
  · rintro ⟨i, hiK, hall⟩
    refine ⟨i, hiK, ?_⟩
    intro t ht
    rw [List.getElem?_map, List.getElem?_range (by omega)]
    simp [hall t ht]

theorem kRun_iff_window (K : Nat) (hK : 1 ≤ K) (p : Cell) (l : List Cell) :
    kRun K p l ↔ ∃ t, windowEndAt K p l t := by
  unfold kRun windowEndAt
  constructor
  · rintro ⟨i, hiK, hall⟩
    refine ⟨i + K - 1, by omega, by omega, ?_⟩
    intro s hs
    have h := hall (K - 1 - s) (by omega)
    rw [show i + (K - 1 - s) = i + K - 1 - s by omega] at h
    exact h
  · rintro ⟨t, htK, htl, hall⟩
    refine ⟨t + 1 - K, by omega, ?_⟩
    intro u hu
    have h := hall (K - 1 - u) (by omega)
    rw [show t - (K - 1 - u) = t + 1 - K + u by omega] at h
    exact h

theorem hasRowRun_iff (M N K : Nat) (b : Board) (p : Cell) :
    hasRowRun M N K b p ↔ ∃ y, y < N ∧ kRun K p (rowCells M b y) := by
  unfold hasRowRun
  constructor
  · rintro ⟨x, y, hxK, hyN, hall⟩
    refine ⟨y, hyN, ?_⟩
    rw [rowCells, kRun_range_map]
    exact ⟨x, hxK, hall⟩
  · rintro ⟨y, hyN, hr⟩
    rw [rowCells, kRun_range_map] at hr
    obtain ⟨x, hxK, hall⟩ := hr
    exact ⟨x, y, hxK, hyN, hall⟩

theorem hasColRun_iff (M N K : Nat) (b : Board) (p : Cell) :
    hasColRun M N K b p ↔ ∃ x, x < M ∧ kRun K p (colCells N b x) := by
  unfold hasColRun
  constructor
  · rintro ⟨x, y, hxM, hyK, hall⟩
    refine ⟨x, hxM, ?_⟩
    rw [colCells, kRun_range_map]
    exact ⟨y, hyK, hall⟩
  · rintro ⟨x, hxM, hr⟩
    rw [colCells, kRun_range_map] at hr
    obtain ⟨y, hyK, hall⟩ := hr
    exact ⟨x, y, hxM, hyK, hall⟩

theorem hasDiag1Run_iff (M N K : Nat) (hK : 1 ≤ K) (b : Board) (p : Cell) :
    hasDiag1Run M N K b p ↔ ∃ i, i < M + N - 1 ∧ kRun K p (diag1Cells M N b i) := by
  constructor
  · rintro ⟨x, y, hxK, hyK, hall⟩
    refine ⟨x + y + K - 1, by omega, ?_⟩
    rw [diag1Cells, kRun_range_map]
    have hj : diag1J M (x + y + K - 1) ≤ y ∧
        (diag1J M (x + y + K - 1) = 0 ∨ diag1J M (x + y + K - 1) = x + y + K - M) := by
      unfold diag1J
      split
      · exact ⟨Nat.zero_le y, Or.inl rfl⟩
      · constructor
        · omega
        · right
          omega
    have hz : y + K ≤ diag1Z N (x + y + K - 1) := by
      unfold diag1Z
      split
      · omega
      · omega
    refine ⟨y - diag1J M (x + y + K - 1), by omega, ?_⟩
    intro t ht
    have h := hall (K - 1 - t) (by omega)
    rw [show y + K - 1 - (K - 1 - t) = y + t by omega] at h
    have harg1 : diag1J M (x + y + K - 1) + (y - diag1J M (x + y + K - 1) + t) = y + t := by
      omega
    rw [harg1, show x + y + K - 1 - (y + t) = x + (K - 1 - t) by omega]
    exact h
  · rintro ⟨i, hiMN, hr⟩
    rw [diag1Cells, kRun_range_map] at hr
    obtain ⟨a, haK, hall⟩ := hr
    have hz1 : diag1Z N i ≤ N := by unfold diag1Z; split <;> omega
    have hz2 : diag1Z N i ≤ i + 1 := by unfold diag1Z; split <;> omega
    have hj1 : (i < M ∧ diag1J M i = 0) ∨ (M ≤ i ∧ diag1J M i = i - M + 1) := by
      unfold diag1J
      split
      · left; omega
      · right; omega
    refine ⟨i - (diag1J M i + a) - (K - 1), diag1J M i + a, ?_, ?_, ?_⟩
    · rcases hj1 with ⟨h1, h2⟩ | ⟨h1, h2⟩ <;> omega
    · omega
    · intro t ht
      have h := hall (K - 1 - t) (by omega)
      convert h using 2 <;> omega

theorem hasDiag2Run_iff (M N K : Nat) (hK : 1 ≤ K) (b : Board) (p : Cell) :
    hasDiag2Run M N K b p ↔ ∃ i, i < M + N - 1 ∧ kRun K p (diag2Cells M N b i) := by
  constructor
  · rintro ⟨x, y, hxK, hyK, hall⟩
    have hyN : y < N := by omega
    refine ⟨x + N - 1 - y, by omega, ?_⟩
    rw [diag2Cells, kRun_range_map]
    have hj : diag2J N (x + N - 1 - y) ≤ y ∧
        (diag2J N (x + N - 1 - y) = 0 ∨ diag2J N (x + N - 1 - y) = y - x) := by
      unfold diag2J
      split
      · constructor
        · omega
        · right; omega
      · exact ⟨Nat.zero_le y, Or.inl rfl⟩
    have hz : y + K ≤ diag2Z M N (x + N - 1 - y) := by
      unfold diag2Z
      split
      · omega
      · omega
    refine ⟨y - diag2J N (x + N - 1 - y), by omega, ?_⟩
    intro t ht
    have h := hall t ht
    have harg1 : diag2J N (x + N - 1 - y) + (y - diag2J N (x + N - 1 - y) + t) = y + t := by
      omega
    rw [harg1, show x + N - 1 - y + (y + t) + 1 - N = x + t by omega]
    exact h
  · rintro ⟨i, hiMN, hr⟩
    rw [diag2Cells, kRun_range_map] at hr
    obtain ⟨a, haK, hall⟩ := hr
    have hz1 : diag2Z M N i ≤ N := by unfold diag2Z; split <;> omega
    have hz2 : (i < M ∧ diag2Z M N i = N) ∨ (M ≤ i ∧ diag2Z M N i = M + N - i - 1) := by
      unfold diag2Z
      split
      · left; omega
      · right; omega
    have hj1 : (i < N ∧ diag2J N i = N - i - 1) ∨ (N ≤ i ∧ diag2J N i = 0) := by
      unfold diag2J
      split
      · left; omega
      · right; omega
    refine ⟨i + (diag2J N i + a) + 1 - N, diag2J N i + a, ?_, ?_, ?_⟩
    · rcases hz2 with ⟨h1, h2⟩ | ⟨h1, h2⟩ <;> rcases hj1 with ⟨h3, h4⟩ | ⟨h3, h4⟩ <;> omega
    · omega
    · intro t ht
      have h := hall t ht
      rcases hj1 with ⟨h3, h4⟩ | ⟨h3, h4⟩ <;> (convert h using 2 <;> omega)

theorem length_rowLines (M N : Nat) (b : Board) : (rowLines M N b).length = N := by
  simp [rowLines]

theorem length_colLines (M N : Nat) (b : Board) : (colLines M N b).length = M := by
  simp [colLines]

theorem length_diag1Lines (M N : Nat) (b : Board) : (diag1Lines M N b).length = M + N - 1 := by
  simp [diag1Lines]

theorem length_diag2Lines (M N : Nat) (b : Board) : (diag2Lines M N b).length = M + N - 1 := by
  simp [diag2Lines]

theorem allLines_length (M N : Nat) (b : Board) :
    (allLines M N b).length = N + M + (M + N - 1) + (M + N - 1) := by
  simp [allLines, rowLines, colLines, diag1Lines, diag2Lines]
  omega

theorem allLines_getElem_row (M N : Nat) (b : Board) (y : Nat) (hy : y < N) :
    (allLines M N b)[y]? = some (rowCells M b y) := by
  unfold allLines
  rw [List.getElem?_append_left (by simp [rowLines, colLines, diag1Lines] <;> omega),
    List.getElem?_append_left (by simp [rowLines, colLines] <;> omega),
    List.getElem?_append_left (by simp [rowLines] <;> omega)]
  simp [rowLines, List.getElem?_map, List.getElem?_range, hy]

theorem allLines_getElem_col (M N : Nat) (b : Board) (x : Nat) (hx : x < M) :
    (allLines M N b)[N + x]? = some (colCells N b x) := by
  unfold allLines
  rw [List.getElem?_append_left (by simp [rowLines, colLines, diag1Lines] <;> omega),
    List.getElem?_append_left (by simp [rowLines, colLines] <;> omega),
    List.getElem?_append_right (by simp [rowLines] <;> omega)]
  rw [length_rowLines, show N + x - N = x by omega]
  simp [colLines, List.getElem?_map, List.getElem?_range, hx]

theorem allLines_getElem_d1 (M N : Nat) (b : Board) (i : Nat) (hi : i < M + N - 1) :
    (allLines M N b)[N + M + i]? = some (diag1Cells M N b i) := by
  unfold allLines
  rw [List.getElem?_append_left (by simp [rowLines, colLines, diag1Lines] <;> omega),
    List.getElem?_append_right (by simp [rowLines, colLines] <;> omega)]
  have hlen : (rowLines M N b ++ colLines M N b).length = N + M := by
    simp [rowLines, colLines]
  rw [hlen, show N + M + i - (N + M) = i by omega]
  simp [diag1Lines, List.getElem?_map, List.getElem?_range, hi]

theorem allLines_getElem_d2 (M N : Nat) (b : Board) (i : Nat) (hi : i < M + N - 1) :
    (allLines M N b)[N + M + (M + N - 1) + i]? = some (diag2Cells M N b i) := by
  unfold allLines
  rw [List.getElem?_append_right (by simp [rowLines, colLines, diag1Lines] <;> omega)]
  have hlen : (rowLines M N b ++ colLines M N b ++ diag1Lines M N b).length =
      N + M + (M + N - 1) := by
    simp [rowLines, colLines, diag1Lines]
    omega
  rw [hlen, show N + M + (M + N - 1) + i - (N + M + (M + N - 1)) = i by omega]
  simp [diag2Lines, List.getElem?_map, List.getElem?_range, hi]

theorem allLines_getElem_cases (M N : Nat) (b : Board) (li : Nat) (l : List Cell)
    (h : (allLines M N b)[li]? = some l) :
    (li < N ∧ l = rowCells M b li) ∨
      (N ≤ li ∧ li < N + M ∧ l = colCells N b (li - N)) ∨
      (N + M ≤ li ∧ li < N + M + (M + N - 1) ∧ l = diag1Cells M N b (li - N - M)) ∨
      (N + M + (M + N - 1) ≤ li ∧ li < N + M + (M + N - 1) + (M + N - 1) ∧
        l = diag2Cells M N b (li - N - M - (M + N - 1))) := by
  have hli : li < (allLines M N b).length := by
    by_contra hc
    rw [List.getElem?_eq_none (by omega)] at h
    exact Option.noConfusion h
  rw [allLines_length] at hli
  by_cases h1 : li < N
  · left
    have := allLines_getElem_row M N b li h1
    rw [h] at this
    exact ⟨h1, Option.some.inj this⟩
  · by_cases h2 : li < N + M
    · right; left
      have := allLines_getElem_col M N b (li - N) (by omega)
      rw [show N + (li - N) = li by omega, h] at this
      exact ⟨by omega, h2, Option.some.inj this⟩
    · by_cases h3 : li < N + M + (M + N - 1)
      · right; right; left
        have := allLines_getElem_d1 M N b (li - N - M) (by omega)
        rw [show N + M + (li - N - M) = li by omega, h] at this
        exact ⟨by omega, h3, Option.some.inj this⟩
      · right; right; right
        have := allLines_getElem_d2 M N b (li - N - M - (M + N - 1)) (by omega)
        rw [show N + M + (M + N - 1) + (li - N - M - (M + N - 1)) = li by omega, h] at this
        exact ⟨by omega, by omega, Option.some.inj this⟩

theorem hasRun_iff_event (M N K : Nat) (hK : 1 ≤ K) (b : Board) (p : Cell) :
    hasRun M N K b p ↔ ∃ e, complEvent M N K b p e := by
  constructor
  · intro h
    have hex : ∃ li : Nat, ∃ l : List Cell, (allLines M N b)[li]? = some l ∧ kRun K p l := by
      rcases h with hr | hr | hr | hr
      · obtain ⟨y, hy, hk⟩ := (hasRowRun_iff M N K b p).mp hr
        exact ⟨y, rowCells M b y, allLines_getElem_row M N b y hy, hk⟩
      · obtain ⟨x, hx, hk⟩ := (hasColRun_iff M N K b p).mp hr
        exact ⟨N + x, colCells N b x, allLines_getElem_col M N b x hx, hk⟩
      · obtain ⟨i, hi, hk⟩ := (hasDiag1Run_iff M N K hK b p).mp hr
        exact ⟨N + M + i, diag1Cells M N b i, allLines_getElem_d1 M N b i hi, hk⟩
      · obtain ⟨i, hi, hk⟩ := (hasDiag2Run_iff M N K hK b p).mp hr
        exact ⟨N + M + (M + N - 1) + i, diag2Cells M N b i, allLines_getElem_d2 M N b i hi, hk⟩
    obtain ⟨li, l, hgl, hk⟩ := hex
    obtain ⟨t, ht⟩ := (kRun_iff_window K hK p l).mp hk
    refine ⟨(li, t), ?_⟩
    unfold complEvent
    rw [List.getD_eq_getElem?_getD, hgl]
    exact ht
  · rintro ⟨e, he⟩
    unfold complEvent at he
    have hlen : e.2 < ((allLines M N b).getD e.1 []).length := he.2.1
    have hli : e.1 < (allLines M N b).length := by
      by_contra hc
      rw [List.getD_eq_default _ _ (by omega)] at hlen
      simp at hlen
    have hgl : (allLines M N b)[e.1]? = some ((allLines M N b).getD e.1 []) := by
      rw [List.getD_eq_getElem _ _ hli]
      exact List.getElem?_eq_getElem hli
    have hk : kRun K p ((allLines M N b).getD e.1 []) :=
      (kRun_iff_window K hK p _).mpr ⟨e.2, he⟩
    rcases allLines_getElem_cases M N b e.1 _ hgl with
      ⟨h1, h2⟩ | ⟨h1, h2, h3⟩ | ⟨h1, h2, h3⟩ | ⟨h1, h2, h3⟩
    · exact Or.inl ((hasRowRun_iff M N K b p).mpr ⟨e.1, h1, h2 ▸ hk⟩)
    · exact Or.inr (Or.inl ((hasColRun_iff M N K b p).mpr ⟨e.1 - N, by omega, h3 ▸ hk⟩))
    · exact Or.inr (Or.inr (Or.inl
        ((hasDiag1Run_iff M N K hK b p).mpr ⟨e.1 - N - M, by omega, h3 ▸ hk⟩)))
    · exact Or.inr (Or.inr (Or.inr
        ((hasDiag2Run_iff M N K hK b p).mpr ⟨e.1 - N - M - (M + N - 1), by omega, h3 ▸ hk⟩)))

theorem line_length_le (M N : Nat) (b : Board) (li : Nat) :
    ((allLines M N b).getD li []).length ≤ M + N := by
  by_cases hli : li < (allLines M N b).length
  · have hgl : (allLines M N b)[li]? = some ((allLines M N b).getD li []) := by
      rw [List.getD_eq_getElem _ _ hli]
      exact List.getElem?_eq_getElem hli
    rcases allLines_getElem_cases M N b li _ hgl with
      ⟨h1, h2⟩ | ⟨h1, h2, h3⟩ | ⟨h1, h2, h3⟩ | ⟨h1, h2, h3⟩
    · rw [h2]; simp [rowCells] <;> omega
    · rw [h3]; simp [colCells] <;> omega
    · rw [h3]
      simp only [diag1Cells, List.length_map, List.length_range]
      have : diag1Z N (li - N - M) ≤ N := by unfold diag1Z; split <;> omega
      omega
    · rw [h3]
      simp only [diag2Cells, List.length_map, List.length_range]
      have : diag2Z M N (li - N - M - (M + N - 1)) ≤ N := by unfold diag2Z; split <;> omega
      omega
  · rw [List.getD_eq_default _ _ (by omega)]
    simp

theorem event_t_lt (M N K : Nat) (b : Board) (p : Cell) (e : Nat × Nat)
    (he : complEvent M N K b p e) : e.2 < M + N := by
  have h1 : e.2 < ((allLines M N b).getD e.1 []).length := he.2.1
  have h2 := line_length_le M N b e.1
  omega

theorem evLt_flat (M N : Nat) (e e' : Nat × Nat) (he : e.2 < M + N) (he' : e'.2 < M + N)
    (h : evLt e e') : e.1 * (M + N) + e.2 < e'.1 * (M + N) + e'.2 := by
  rcases h with h | ⟨h1, h2⟩
  · have : (e.1 + 1) * (M + N) ≤ e'.1 * (M + N) := Nat.mul_le_mul_right _ (by omega)
    rw [Nat.succ_mul] at this
    omega
  · rw [h1]
    omega

theorem flat_evLt (M N : Nat) (e e' : Nat × Nat) (he : e.2 < M + N) (he' : e'.2 < M + N)
    (h : e.1 * (M + N) + e.2 < e'.1 * (M + N) + e'.2) : evLt e e' := by
  unfold evLt
  by_cases h1 : e.1 < e'.1
  · exact Or.inl h1
  · right
    by_cases h2 : e.1 = e'.1
    · refine ⟨h2, ?_⟩
      rw [h2] at h
      omega
    · exfalso
      have h3 : e'.1 + 1 ≤ e.1 := by omega
      have : (e'.1 + 1) * (M + N) ≤ e.1 * (M + N) := Nat.mul_le_mul_right _ h3
      rw [Nat.succ_mul] at this
      omega

theorem flat_roundtrip (M N K : Nat) (b : Board) (p : Cell) (e : Nat × Nat)
    (he : complEvent M N K b p e) :
    (e.1 * (M + N) + e.2) / (M + N) = e.1 ∧ (e.1 * (M + N) + e.2) % (M + N) = e.2 := by
  have ht := event_t_lt M N K b p e he
  have hW0 : 0 < M + N := by omega
  constructor
  · rw [Nat.mul_comm e.1 (M + N), Nat.mul_add_div hW0, Nat.div_eq_of_lt ht]
    omega
  · rw [Nat.mul_comm e.1 (M + N), Nat.mul_add_mod, Nat.mod_eq_of_lt ht]

theorem event_line (M N : Nat) (b : Board) (li : Nat)
    (h : 0 < ((allLines M N b).getD li []).length) :
    (allLines M N b)[li]? = some ((allLines M N b).getD li []) := by
  have hli : li < (allLines M N b).length := by
    by_contra hc
    rw [List.getD_eq_default _ _ (by omega)] at h
    simp at h
  rw [List.getD_eq_getElem _ _ hli]
  exact List.getElem?_eq_getElem hli

theorem checkWin_eq_wus (M N K : Nat) (hK : 1 ≤ K) (b : Board)
    (hUs : hasRun M N K b Cell.cus)
    (hNE : ∀ e, complEvent M N K b Cell.cthem e →
      ∃ e', complEvent M N K b Cell.cus e' ∧ evLt e' e) :
    checkWin M N K b = WinRes.wus := by
  obtain ⟨e0, he0⟩ := (hasRun_iff_event M N K hK b Cell.cus).mp hUs
  have hW0 : 0 < M + N := by
    have := event_t_lt M N K b Cell.cus e0 he0
    omega
  have hex : ∃ k, complEvent M N K b Cell.cus (k / (M + N), k % (M + N)) := by
    refine ⟨e0.1 * (M + N) + e0.2, ?_⟩
    obtain ⟨h1, h2⟩ := flat_roundtrip M N K b Cell.cus e0 he0
    rw [h1, h2]
    exact he0
  have hkspec := Nat.find_spec hex
  have hmin : ∀ e, complEvent M N K b Cell.cus e → Nat.find hex ≤ e.1 * (M + N) + e.2 := by
    intro e he
    by_contra hc
    apply Nat.find_min hex (show e.1 * (M + N) + e.2 < Nat.find hex by omega)
    obtain ⟨h1, h2⟩ := flat_roundtrip M N K b Cell.cus e he
    rw [h1, h2]
    exact he
  have hk_eq : Nat.find hex / (M + N) * (M + N) + Nat.find hex % (M + N) = Nat.find hex := by
    rw [Nat.mul_comm]
    exact Nat.div_add_mod _ _
  have hmod_lt : Nat.find hex % (M + N) < M + N := Nat.mod_lt _ hW0
  have hThemLater : ∀ e, complEvent M N K b Cell.cthem e →
      Nat.find hex < e.1 * (M + N) + e.2 := by
    intro e he
    obtain ⟨e', he', hlt⟩ := hNE e he
    have h1 := hmin e' he'
    have h2 := evLt_flat M N e' e (event_t_lt M N K b Cell.cus e' he')
      (event_t_lt M N K b Cell.cthem e he) hlt
    omega
  have hlen0 : Nat.find hex % (M + N) <
      ((allLines M N b).getD (Nat.find hex / (M + N)) []).length := hkspec.2.1
  have hline := event_line M N b (Nat.find hex / (M + N)) (by omega)
  have hscan : scanLine K ((allLines M N b).getD (Nat.find hex / (M + N)) []) 0 0 =
      some WinRes.wus := by
    apply scanLine_wus_intro K hK _ (Nat.find hex % (M + N)) hkspec
    intro t' ht'
    constructor
    · intro hw
      have hev : complEvent M N K b Cell.cus (Nat.find hex / (M + N), t') := hw
      have h9 : Nat.find hex ≤ Nat.find hex / (M + N) * (M + N) + t' := hmin _ hev
      omega
    · intro hw
      have hev : complEvent M N K b Cell.cthem (Nat.find hex / (M + N), t') := hw
      have h9 : Nat.find hex < Nat.find hex / (M + N) * (M + N) + t' := hThemLater _ hev
      omega
  have hprev : ∀ j : Nat, j < Nat.find hex / (M + N) → ∀ l',
      (allLines M N b)[j]? = some l' → scanLine K l' 0 0 = none := by
    intro j hj l' hl'
    rw [scanLine_none_iff K hK]
    intro t
    have hld : (allLines M N b).getD j [] = l' := by
      rw [List.getD_eq_getElem?_getD, hl']
      rfl
    have hflat : ∀ t0 : Nat, t0 < l'.length → j * (M + N) + t0 < Nat.find hex := by
      intro t0 ht0
      have hlle := line_length_le M N b j
      rw [hld] at hlle
      have h1 : (j + 1) * (M + N) ≤ Nat.find hex / (M + N) * (M + N) :=
        Nat.mul_le_mul_right _ (by omega)
      rw [Nat.succ_mul] at h1
      omega
    constructor
    · intro hw
      have hev : complEvent M N K b Cell.cus (j, t) := by
        unfold complEvent
        rw [hld]
        exact hw
      have h1 : Nat.find hex ≤ j * (M + N) + t := hmin _ hev
      have h2 := hflat t hw.2.1
      omega
    · intro hw
      have hev : complEvent M N K b Cell.cthem (j, t) := by
        unfold complEvent
        rw [hld]
        exact hw
      have h1 : Nat.find hex < j * (M + N) + t := hThemLater _ hev
      have h2 := hflat t hw.2.1
      omega
  have hfs : (allLines M N b).findSome? (fun l => scanLine K l 0 0) = some WinRes.wus := by
    rw [findSome?_eq_some_iff]
    exact ⟨Nat.find hex / (M + N), _, hline, hscan, hprev⟩
  unfold checkWin
  rw [hfs]

theorem checkWin_eq_wthem (M N K : Nat) (hK : 1 ≤ K) (b : Board)
    (hThem : hasRun M N K b Cell.cthem)
    (hNE : ∀ e, complEvent M N K b Cell.cus e →
      ∃ e', complEvent M N K b Cell.cthem e' ∧ evLt e' e) :
    checkWin M N K b = WinRes.wthem := by
  obtain ⟨e0, he0⟩ := (hasRun_iff_event M N K hK b Cell.cthem).mp hThem
  have hW0 : 0 < M + N := by
    have := event_t_lt M N K b Cell.cthem e0 he0
    omega
  have hex : ∃ k, complEvent M N K b Cell.cthem (k / (M + N), k % (M + N)) := by
    refine ⟨e0.1 * (M + N) + e0.2, ?_⟩
    obtain ⟨h1, h2⟩ := flat_roundtrip M N K b Cell.cthem e0 he0
    rw [h1, h2]
    exact he0
  have hkspec := Nat.find_spec hex
  have hmin : ∀ e, complEvent M N K b Cell.cthem e → Nat.find hex ≤ e.1 * (M + N) + e.2 := by
    intro e he
    by_contra hc
    apply Nat.find_min hex (show e.1 * (M + N) + e.2 < Nat.find hex by omega)
    obtain ⟨h1, h2⟩ := flat_roundtrip M N K b Cell.cthem e he
    rw [h1, h2]
    exact he
  have hk_eq : Nat.find hex / (M + N) * (M + N) + Nat.find hex % (M + N) = Nat.find hex := by
    rw [Nat.mul_comm]
    exact Nat.div_add_mod _ _
  have hmod_lt : Nat.find hex % (M + N) < M + N := Nat.mod_lt _ hW0
  have hUsLater : ∀ e, complEvent M N K b Cell.cus e →
      Nat.find hex < e.1 * (M + N) + e.2 := by
    intro e he
    obtain ⟨e', he', hlt⟩ := hNE e he
    have h1 := hmin e' he'
    have h2 := evLt_flat M N e' e (event_t_lt M N K b Cell.cthem e' he')
      (event_t_lt M N K b Cell.cus e he) hlt
    omega
  have hlen0 : Nat.find hex % (M + N) <
      ((allLines M N b).getD (Nat.find hex / (M + N)) []).length := hkspec.2.1
  have hline := event_line M N b (Nat.find hex / (M + N)) (by omega)
  have hscan : scanLine K ((allLines M N b).getD (Nat.find hex / (M + N)) []) 0 0 =
      some WinRes.wthem := by
    apply scanLine_wthem_intro K hK _ (Nat.find hex % (M + N)) hkspec
    · intro hw
      have hev : complEvent M N K b Cell.cus
          (Nat.find hex / (M + N), Nat.find hex % (M + N)) := hw
      have h9 : Nat.find hex <
          Nat.find hex / (M + N) * (M + N) + Nat.find hex % (M + N) := hUsLater _ hev
      omega
    · intro t' ht'
      constructor
      · intro hw
        have hev : complEvent M N K b Cell.cus (Nat.find hex / (M + N), t') := hw
        have h9 : Nat.find hex < Nat.find hex / (M + N) * (M + N) + t' := hUsLater _ hev
        omega
      · intro hw
        have hev : complEvent M N K b Cell.cthem (Nat.find hex / (M + N), t') := hw
        have h9 : Nat.find hex ≤ Nat.find hex / (M + N) * (M + N) + t' := hmin _ hev
        omega
  have hprev : ∀ j : Nat, j < Nat.find hex / (M + N) → ∀ l',
      (allLines M N b)[j]? = some l' → scanLine K l' 0 0 = none := by
    intro j hj l' hl'
    rw [scanLine_none_iff K hK]
    intro t
    have hld : (allLines M N b).getD j [] = l' := by
      rw [List.getD_eq_getElem?_getD, hl']
      rfl
    have hflat : ∀ t0 : Nat, t0 < l'.length → j * (M + N) + t0 < Nat.find hex := by
      intro t0 ht0
      have hlle := line_length_le M N b j
      rw [hld] at hlle
      have h1 : (j + 1) * (M + N) ≤ Nat.find hex / (M + N) * (M + N) :=
        Nat.mul_le_mul_right _ (by omega)
      rw [Nat.succ_mul] at h1
      omega
    constructor
    · intro hw
      have hev : complEvent M N K b Cell.cus (j, t) := by
        unfold complEvent
        rw [hld]
        exact hw
      have h1 : Nat.find hex < j * (M + N) + t := hUsLater _ hev
      have h2 := hflat t hw.2.1
      omega
    · intro hw
      have hev : complEvent M N K b Cell.cthem (j, t) := by
        unfold complEvent
        rw [hld]
        exact hw
      have h1 : Nat.find hex ≤ j * (M + N) + t := hmin _ hev
      have h2 := hflat t hw.2.1
      omega
  have hfs : (allLines M N b).findSome? (fun l => scanLine K l 0 0) = some WinRes.wthem := by
    rw [findSome?_eq_some_iff]
    exact ⟨Nat.find hex / (M + N), _, hline, hscan, hprev⟩
  unfold checkWin
  rw [hfs]

theorem findSome?_none_of_no_runs (M N K : Nat) (hK : 1 ≤ K) (b : Board)
    (hUs : ¬hasRun M N K b Cell.cus) (hThem : ¬hasRun M N K b Cell.cthem) :
    (allLines M N b).findSome? (fun l => scanLine K l 0 0) = none := by
  rw [List.findSome?_eq_none]
  intro l hl
  obtain ⟨li, hli⟩ := List.mem_iff_getElem?.mp hl
  rw [scanLine_none_iff K hK]
  intro t
  have hld : (allLines M N b).getD li [] = l := by
    rw [List.getD_eq_getElem?_getD, hli]
    rfl
  constructor
  · intro hw
    apply hUs
    rw [hasRun_iff_event M N K hK]
    refine ⟨(li, t), ?_⟩
    unfold complEvent
    rw [hld]
    exact hw
  · intro hw
    apply hThem
    rw [hasRun_iff_event M N K hK]
    refine ⟨(li, t), ?_⟩
    unfold complEvent
    rw [hld]
    exact hw

theorem diag2_any_empty_iff (M N : Nat) (b : Board) :
    ((diag2Lines M N b).flatten.any (fun c => decide (c = Cell.cnone)) = true) ↔
      ∃ x y, x < M ∧ y < N ∧ b x y = Cell.cnone := by
  rw [List.any_eq_true]
  constructor
  · rintro ⟨c, hc, hcn⟩
    obtain ⟨l, hl, hcl⟩ := List.mem_flatten.mp hc
    obtain ⟨i, hi, hil⟩ := List.mem_map.mp hl
    have hiMN : i < M + N - 1 := List.mem_range.mp hi
    subst hil
    obtain ⟨t, ht, htc⟩ := List.mem_map.mp hcl
    have htlt : t < diag2Z M N i - diag2J N i := List.mem_range.mp ht
    have hz2 : (i < M ∧ diag2Z M N i = N) ∨ (M ≤ i ∧ diag2Z M N i = M + N - i - 1) := by
      unfold diag2Z
      split
      · left; omega
      · right; omega
    have hj1 : (i < N ∧ diag2J N i = N - i - 1) ∨ (N ≤ i ∧ diag2J N i = 0) := by
      unfold diag2J
      split
      · left; omega
      · right; omega
    refine ⟨i + (diag2J N i + t) + 1 - N, diag2J N i + t, ?_, ?_, ?_⟩
    · rcases hz2 with ⟨h1, h2⟩ | ⟨h1, h2⟩ <;> rcases hj1 with ⟨h3, h4⟩ | ⟨h3, h4⟩ <;> omega
    · rcases hz2 with ⟨h1, h2⟩ | ⟨h1, h2⟩ <;> omega
    · rw [htc]
      simpa using hcn
  · rintro ⟨x, y, hx, hy, hb⟩
    have hz2 : (x + N - 1 - y < M ∧ diag2Z M N (x + N - 1 - y) = N) ∨
        (M ≤ x + N - 1 - y ∧ diag2Z M N (x + N - 1 - y) = M + N - (x + N - 1 - y) - 1) := by
      unfold diag2Z
      split
      · left; omega
      · right; omega
    have hj1 : (x + N - 1 - y < N ∧ diag2J N (x + N - 1 - y) = N - (x + N - 1 - y) - 1) ∨
        (N ≤ x + N - 1 - y ∧ diag2J N (x + N - 1 - y) = 0) := by
      unfold diag2J
      split
      · left; omega
      · right; omega
    refine ⟨b x y, ?_, by simpa using hb⟩
    rw [List.mem_flatten]
    refine ⟨diag2Cells M N b (x + N - 1 - y), ?_, ?_⟩
    · rw [diag2Lines]
      apply List.mem_map_of_mem
      rw [List.mem_range]
      omega
    · rw [diag2Cells]
      have harg : b x y = b ((x + N - 1 - y) + (diag2J N (x + N - 1 - y) +
          (y - diag2J N (x + N - 1 - y))) + 1 - N) (diag2J N (x + N - 1 - y) +
          (y - diag2J N (x + N - 1 - y))) := by
        rcases hj1 with ⟨h3, h4⟩ | ⟨h3, h4⟩ <;>
          (congr 1 <;> omega)
      rw [harg]
      apply List.mem_map_of_mem
      rw [List.mem_range]
      rcases hz2 with ⟨h1, h2⟩ | ⟨h1, h2⟩ <;> rcases hj1 with ⟨h3, h4⟩ | ⟨h3, h4⟩ <;> omega

/-- C1: `checkWin` returns a win for the player who completes a `K`-run first
in scan order, a tie when no run exists and the active region is full, and
no result when no run exists and an empty cell remains. -/
theorem claim_C1 (M N K : Nat) (b : Board) (hK : 1 ≤ K) :
    (hasRun M N K b Cell.cus →
      (∀ e, complEvent M N K b Cell.cthem e →
        ∃ e', complEvent M N K b Cell.cus e' ∧ evLt e' e) →
      checkWin M N K b = WinRes.wus) ∧
    (hasRun M N K b Cell.cthem →
      (∀ e, complEvent M N K b Cell.cus e →
        ∃ e', complEvent M N K b Cell.cthem e' ∧ evLt e' e) →
      checkWin M N K b = WinRes.wthem) ∧
    (¬hasRun M N K b Cell.cus → ¬hasRun M N K b Cell.cthem →
      (∀ x y, x < M → y < N → b x y ≠ Cell.cnone) →
      checkWin M N K b = WinRes.wtie) ∧
    (¬hasRun M N K b Cell.cus → ¬hasRun M N K b Cell.cthem →
      (∃ x y, x < M ∧ y < N ∧ b x y = Cell.cnone) →
      checkWin M N K b = WinRes.wnone) := by
  refine ⟨checkWin_eq_wus M N K hK b, checkWin_eq_wthem M N K hK b, ?_, ?_⟩
  · intro hUs hThem hfull
    unfold checkWin
    rw [findSome?_none_of_no_runs M N K hK b hUs hThem]
    rw [if_neg]
    intro hc
    obtain ⟨x, y, hx, hy, hb⟩ := (diag2_any_empty_iff M N b).mp hc
    exact hfull x y hx hy hb
  · intro hUs hThem hempty
    unfold checkWin
    rw [findSome?_none_of_no_runs M N K hK b hUs hThem]
    rw [if_pos ((diag2_any_empty_iff M N b).mpr hempty)]

/-- Witness for C1: on the empty 1-by-1 board with `K = 1` neither player has
a run and an empty cell remains, so `checkWin` reports no result. -/
theorem claim_C1_witness :
    1 ≤ 1 ∧ checkWin 1 1 1 (fun _ _ => Cell.cnone) = WinRes.wnone := by
  refine ⟨by decide, ?_⟩
  have h := claim_C1 1 1 1 (fun _ _ => Cell.cnone) (by decide)
  apply h.2.2.2
  · rintro (⟨x, y, hx, hy, hall⟩ | ⟨x, y, hx, hy, hall⟩ |
      ⟨x, y, hx, hy, hall⟩ | ⟨x, y, hx, hy, hall⟩) <;>
      exact Cell.noConfusion (hall 0 (by omega))
  · rintro (⟨x, y, hx, hy, hall⟩ | ⟨x, y, hx, hy, hall⟩ |
      ⟨x, y, hx, hy, hall⟩ | ⟨x, y, hx, hy, hall⟩) <;>
      exact Cell.noConfusion (hall 0 (by omega))
  · exact ⟨0, 0, by omega, by omega, rfl⟩

theorem PhiFrom_mono (L : Nat) : ∀ p q, p ≤ q → PhiFrom p L ≤ PhiFrom q L := by
  induction L with
  | zero => intro p q _; exact le_refl 0
  | succ L ih =>
    intro p q hpq
    simp only [PhiFrom]
    have := ih (p + 1) (q + 1) (by omega)
    omega

theorem PhiFrom_eq (L : Nat) : ∀ p, PhiFrom p L = Phi L + p * L := by
  induction L with
  | zero => intro p; simp [PhiFrom, Phi]
  | succ L ih =>
    intro p
    simp only [PhiFrom, Phi]
    rw [ih (p + 1)]
    ring

theorem evalStep_pot (K : Nat) (st : EvalSt) (c : Cell) :
    evalPot (evalStep K st c) ≤ evalPot st + max st.pieces1 st.pieces2 + 2 ∧
      max (evalStep K st c).pieces1 (evalStep K st c).pieces2 ≤
        max st.pieces1 st.pieces2 + 1 := by
  have hsub : (st.acc - (st.runScore2 : Int)).natAbs ≤ st.acc.natAbs + st.runScore2 := by
    have h := Int.natAbs_sub_le st.acc (st.runScore2 : Int)
    simpa using h
  have hadd : (st.acc + (st.runScore1 : Int)).natAbs ≤ st.acc.natAbs + st.runScore1 := by
    have h := Int.natAbs_add_le st.acc (st.runScore1 : Int)
    simpa using h
  cases c
  · constructor
    · simp only [evalStep, evalPot]
      omega
    · simp only [evalStep]
      omega
  · constructor
    · simp only [evalStep, evalPot]
      split
      · omega
      · omega
    · simp only [evalStep]
      omega
  · constructor
    · simp only [evalStep, evalPot]
      split
      · omega
      · omega
    · simp only [evalStep]
      omega

theorem evalFold_pot (K : Nat) (cells : List Cell) : ∀ st : EvalSt,
    evalPot (cells.foldl (evalStep K) st) ≤
      evalPot st + PhiFrom (max st.pieces1 st.pieces2) cells.length := by
  induction cells with
  | nil =>
    intro st
    simp [PhiFrom]
  | cons c rest ih =>
    intro st
    rw [List.foldl_cons, List.length_cons]
    have h1 := evalStep_pot K st c
    have h2 := ih (evalStep K st c)
    have h3 := PhiFrom_mono rest.length _ _ h1.2
    simp only [PhiFrom]
    omega

theorem evalEndRun_natAbs (K : Nat) (st : EvalSt) :
    (evalEndRun K st).natAbs ≤ evalPot st := by
  simp only [evalEndRun, evalPot]
  have hsub : (st.acc - (st.runScore2 : Int)).natAbs ≤ st.acc.natAbs + st.runScore2 := by
    have h := Int.natAbs_sub_le st.acc (st.runScore2 : Int)
    simpa using h
  have hadd1 : ((st.acc - (st.runScore2 : Int)) + (st.runScore1 : Int)).natAbs ≤
      (st.acc - (st.runScore2 : Int)).natAbs + st.runScore1 := by
    have h := Int.natAbs_add_le (st.acc - (st.runScore2 : Int)) (st.runScore1 : Int)
    simpa using h
  have hadd2 : (st.acc + (st.runScore1 : Int)).natAbs ≤ st.acc.natAbs + st.runScore1 := by
    have h := Int.natAbs_add_le st.acc (st.runScore1 : Int)
    simpa using h
  split <;> split <;> omega

theorem evalLine_natAbs (K : Nat) (cells : List Cell) :
    (evalLine K cells).natAbs ≤ Phi cells.length := by
  unfold evalLine
  have h1 := evalEndRun_natAbs K (cells.foldl (evalStep K) evalInit)
  have h2 := evalFold_pot K cells evalInit
  have h3 : evalPot evalInit = 0 := rfl
  have h4 : max evalInit.pieces1 evalInit.pieces2 = 0 := rfl
  rw [h3, h4, PhiFrom_eq] at h2
  omega

theorem natAbs_sum_le {α : Type} (l : List α) (f : α → Int) (g : α → Nat)
    (h : ∀ a ∈ l, (f a).natAbs ≤ g a) :
    ((l.map f).sum).natAbs ≤ (l.map g).sum := by
  induction l with
  | nil => simp
  | cons a rest ih =>
    simp only [List.map_cons, List.sum_cons]
    have h1 := Int.natAbs_add_le (f a) ((rest.map f).sum)
    have h2 := ih (fun a ha => h a (List.mem_cons_of_mem _ ha))
    have h3 := h a (List.mem_cons_self a rest)
    omega

theorem sum_map_range_const (n c : Nat) : ((List.range n).map (fun _ => c)).sum = n * c := by
  induction n with
  | zero => simp
  | succ n ih =>
    rw [List.range_succ, List.map_append, List.sum_append, ih]
    simp
    ring

theorem positionalScore_natAbs (M N : Nat) (b : Board) :
    (positionalScore M N b).natAbs ≤ posBound M N := by
  unfold positionalScore posBound
  apply natAbs_sum_le
  intro x _
  apply natAbs_sum_le
  intro y _
  by_cases hc : M / 3 ≤ x ∧ x < M - M / 3 ∧ N / 3 ≤ y ∧ y < N - N / 3
  · rw [if_pos hc]
    cases hxy : b x y <;> simp [hxy, posValue, hc]
  · rw [if_neg hc]
    cases hxy : b x y <;> simp [hxy, posValue, hc]

theorem evaluateBoard_natAbs (M N K : Nat) (b : Board) :
    (evaluateBoard M N K b).natAbs ≤ evalBound M N := by
  unfold evaluateBoard evalBound runBound
  have hpos := positionalScore_natAbs M N b
  have hrow : ((((rowLines M N b).map (evalLine K)).sum)).natAbs ≤ N * Phi M := by
    have h1 := natAbs_sum_le (rowLines M N b) (evalLine K) (fun l => Phi l.length)
      (fun l _ => evalLine_natAbs K l)
    have h2 : ((rowLines M N b).map (fun l => Phi l.length)).sum = N * Phi M := by
      rw [rowLines, List.map_map]
      have : (fun l : List Cell => Phi l.length) ∘ rowCells M b = fun _ => Phi M := by
        funext y
        simp [rowCells]
      rw [this, sum_map_range_const]
    omega
  have hcol : ((((colLines M N b).map (evalLine K)).sum)).natAbs ≤ M * Phi N := by
    have h1 := natAbs_sum_le (colLines M N b) (evalLine K) (fun l => Phi l.length)
      (fun l _ => evalLine_natAbs K l)
    have h2 : ((colLines M N b).map (fun l => Phi l.length)).sum = M * Phi N := by
      rw [colLines, List.map_map]
      have : (fun l : List Cell => Phi l.length) ∘ colCells N b = fun _ => Phi N := by
        funext x
        simp [colCells]
      rw [this, sum_map_range_const]
    omega
  have hd1 : ((((diag1Lines M N b).map (evalLine K)).sum)).natAbs ≤
      ((List.range (M + N - 1)).map (fun i => Phi (diag1Z N i - diag1J M i))).sum := by
    have h1 := natAbs_sum_le (diag1Lines M N b) (evalLine K) (fun l => Phi l.length)
      (fun l _ => evalLine_natAbs K l)
    have h2 : ((diag1Lines M N b).map (fun l => Phi l.length)).sum =
        ((List.range (M + N - 1)).map (fun i => Phi (diag1Z N i - diag1J M i))).sum := by
      rw [diag1Lines, List.map_map]
      apply congrArg List.sum
      apply List.map_congr_left
      intro i _
      simp [diag1Cells]
    omega
  have hd2 : ((((diag2Lines M N b).map (evalLine K)).sum)).natAbs ≤
      ((List.range (M + N - 1)).map (fun i => Phi (diag2Z M N i - diag2J N i))).sum := by
    have h1 := natAbs_sum_le (diag2Lines M N b) (evalLine K) (fun l => Phi l.length)
      (fun l _ => evalLine_natAbs K l)
    have h2 : ((diag2Lines M N b).map (fun l => Phi l.length)).sum =
        ((List.range (M + N - 1)).map (fun i => Phi (diag2Z M N i - diag2J N i))).sum := by
      rw [diag2Lines, List.map_map]
      apply congrArg List.sum
      apply List.map_congr_left
      intro i _
      simp [diag2Cells]
    omega
  have t1 := Int.natAbs_add_le (positionalScore M N b + ((rowLines M N b).map (evalLine K)).sum
    + ((colLines M N b).map (evalLine K)).sum + ((diag1Lines M N b).map (evalLine K)).sum)
    (((diag2Lines M N b).map (evalLine K)).sum)
  have t2 := Int.natAbs_add_le (positionalScore M N b + ((rowLines M N b).map (evalLine K)).sum
    + ((colLines M N b).map (evalLine K)).sum) (((diag1Lines M N b).map (evalLine K)).sum)
  have t3 := Int.natAbs_add_le (positionalScore M N b + ((rowLines M N b).map (evalLine K)).sum)
    (((colLines M N b).map (evalLine K)).sum)
  have t4 := Int.natAbs_add_le (positionalScore M N b) (((rowLines M N b).map (evalLine K)).sum)
  omega

theorem evaluateBoard_le (M N K : Nat) (b : Board) (hM : M ≤ 15) (hN : N ≤ 15) :
    (evaluateBoard M N K b).natAbs ≤ 7230 := by
  have h1 := evaluateBoard_natAbs M N K b
  have h2 : evalBound M N ≤ 7230 := by
    have h := (by decide : ∀ m, m < 16 → ∀ n, n < 16 → evalBound m n ≤ 7230)
    exact h M (by omega) N (by omega)
  omega

/-- C5: on boards with `M, N ≤ 15` the evaluator's magnitude never exceeds
`EVAL_MAX = 7230`, strictly between the loss sentinel `-10000` and the win
sentinel `10000`; `minimax` returns exactly those sentinels at terminal
win/loss nodes and exactly `0` at tie nodes, so terminal scores lie strictly
outside any value the evaluator can produce. -/
theorem claim_C5 (M N K : Nat) (b : Board) (hM : M ≤ 15) (hN : N ≤ 15) :
    (evaluateBoard M N K b).natAbs ≤ EVAL_MAX.natAbs ∧
      EVAL_N_INF < evaluateBoard M N K b ∧ evaluateBoard M N K b < EVAL_INF ∧
      EVAL_MAX < EVAL_INF ∧ EVAL_N_INF < EVAL_MIN ∧
      (∀ depth alpha beta mx prev, checkWin M N K b = WinRes.wus →
        minimax M N K depth b alpha beta mx prev = (EVAL_INF, prev)) ∧
      (∀ depth alpha beta mx prev, checkWin M N K b = WinRes.wthem →
        minimax M N K depth b alpha beta mx prev = (EVAL_N_INF, prev)) ∧
      (∀ depth alpha beta mx prev, checkWin M N K b = WinRes.wtie →
        minimax M N K depth b alpha beta mx prev = (0, prev)) := by
  have hb := evaluateBoard_le M N K b hM hN
  refine ⟨by simpa [EVAL_MAX] using hb, ?_, ?_, by decide, by decide, ?_, ?_, ?_⟩
  · simp only [EVAL_N_INF]
    omega
  · simp only [EVAL_INF]
    omega
  · intro depth alpha beta mx prev h
    cases depth <;> simp [minimax, h]
  · intro depth alpha beta mx prev h
    cases depth <;> simp [minimax, h]
  · intro depth alpha beta mx prev h
    cases depth <;> simp [minimax, h]

/-- Witness for C5 on the empty 3-by-3 board. -/
theorem claim_C5_witness :
    (3 ≤ 15 ∧ 3 ≤ 15) ∧
      ((evaluateBoard 3 3 3 (fun _ _ => Cell.cnone)).natAbs ≤ EVAL_MAX.natAbs ∧
        EVAL_N_INF < evaluateBoard 3 3 3 (fun _ _ => Cell.cnone) ∧
        evaluateBoard 3 3 3 (fun _ _ => Cell.cnone) < EVAL_INF ∧
        EVAL_MAX < EVAL_INF ∧ EVAL_N_INF < EVAL_MIN ∧
        (∀ depth alpha beta mx prev, checkWin 3 3 3 (fun _ _ => Cell.cnone) = WinRes.wus →
          minimax 3 3 3 depth (fun _ _ => Cell.cnone) alpha beta mx prev = (EVAL_INF, prev)) ∧
        (∀ depth alpha beta mx prev, checkWin 3 3 3 (fun _ _ => Cell.cnone) = WinRes.wthem →
          minimax 3 3 3 depth (fun _ _ => Cell.cnone) alpha beta mx prev = (EVAL_N_INF, prev)) ∧
        (∀ depth alpha beta mx prev, checkWin 3 3 3 (fun _ _ => Cell.cnone) = WinRes.wtie →
          minimax 3 3 3 depth (fun _ _ => Cell.cnone) alpha beta mx prev = (0, prev))) :=
  ⟨⟨by decide, by decide⟩, claim_C5 3 3 3 (fun _ _ => Cell.cnone) (by decide) (by decide)⟩

theorem fullMaxLoop_le (f : Pos → Int) (C : Int) (moves : List Pos) :
    ∀ v best, v ≤ C → (∀ q ∈ moves, f q ≤ C) → (fullMaxLoop f moves v best).1 ≤ C := by
  induction moves with
  | nil => intro v best hv _; exact hv
  | cons q rest ih =>
    intro v best hv hf
    simp only [fullMaxLoop]
    split
    · exact ih _ _ (hf q (List.mem_cons_self q rest)) (fun r hr => hf r (List.mem_cons_of_mem _ hr))
    · exact ih _ _ hv (fun r hr => hf r (List.mem_cons_of_mem _ hr))

theorem fullMinLoop_le (f : Pos → Int) (moves : List Pos) :
    ∀ v best, (fullMinLoop f moves v best).1 ≤ v := by
  induction moves with
  | nil => intro v best; exact le_refl v
  | cons q rest ih =>
    intro v best
    simp only [fullMinLoop]
    split
    · have h1 := ih (f q) (some q)
      omega
    · exact ih v best

theorem decay_le (v C : Int) (hC : EVAL_MIN ≤ C) (h : v ≤ C) : decay v ≤ C := by
  unfold decay
  split <;> simp [EVAL_MIN] at * <;> omega

theorem minimaxFull_le (M N K : Nat) (hM : M ≤ 15) (hN : N ≤ 15) :
    ∀ (depth : Nat) (b : Board) (mx : Bool) (prev : Option Pos),
      (minimaxFull M N K depth b mx prev).1 ≤ EVAL_INF := by
  intro depth
  induction depth with
  | zero =>
    intro b mx prev
    cases hw : checkWin M N K b <;> simp [minimaxFull, hw] <;> simp [EVAL_INF, EVAL_N_INF]
    have := evaluateBoard_le M N K b hM hN
    omega
  | succ d ih =>
    intro b mx prev
    cases hw : checkWin M N K b <;> simp [minimaxFull, hw]
    · cases mx <;> simp
      · apply decay_le _ _ (by decide)
        have h1 := fullMinLoop_le
          (fun q => (minimaxFull M N K d (copyWithMove b Cell.cthem q.1 q.2) true none).1)
          (posList M N b) EVAL_INF none
        exact h1
      · apply decay_le _ _ (by decide)
        apply fullMaxLoop_le _ _ _ _ _ (by decide)
        intro q _
        exact ih (copyWithMove b Cell.cus q.1 q.2) false none
    · simp [EVAL_INF, EVAL_N_INF]
    · simp [EVAL_INF]

theorem fullMaxLoop_stable (f : Pos → Int) (moves : List Pos) :
    ∀ v best, (∀ q ∈ moves, f q ≤ v) → fullMaxLoop f moves v best = (v, best) := by
  induction moves with
  | nil => intro v best _; rfl
  | cons q rest ih =>
    intro v best hf
    simp only [fullMaxLoop]
    rw [if_neg (by have := hf q (List.mem_cons_self q rest); omega)]
    exact ih v best (fun r hr => hf r (List.mem_cons_of_mem _ hr))

theorem abMaxLoop_eq_full (fab : Int → Pos → Int) (ffull : Pos → Int) (moves : List Pos)
    (hf : ∀ a q, a < EVAL_INF → q ∈ moves → fab a q = ffull q)
    (hb : ∀ q ∈ moves, ffull q ≤ EVAL_INF) :
    ∀ v best alpha, alpha < EVAL_INF → v ≤ EVAL_INF →
      abMaxLoop EVAL_INF fab moves v best alpha = fullMaxLoop ffull moves v best := by
  induction moves with
  | nil => intro v best alpha _ _; rfl
  | cons q rest ih =>
    intro v best alpha halpha hv
    simp only [abMaxLoop, fullMaxLoop]
    rw [hf alpha q halpha (List.mem_cons_self q rest)]
    have hfq := hb q (List.mem_cons_self q rest)
    by_cases hbreak : EVAL_INF ≤ max alpha (if v < ffull q then ffull q else v)
    · rw [if_pos hbreak]
      by_cases hc : v < ffull q
      · rw [if_pos hc] at hbreak
        simp only [if_pos hc]
        have hq : ffull q = EVAL_INF := by
          rcases le_max_iff.mp hbreak with h | h
          · omega
          · omega
        rw [hq]
        rw [fullMaxLoop_stable ffull rest EVAL_INF (some q)
          (fun r hr => hb r (List.mem_cons_of_mem _ hr))]
      · rw [if_neg hc] at hbreak
        simp only [if_neg hc]
        have hq : v = EVAL_INF := by
          rcases le_max_iff.mp hbreak with h | h
          · omega
          · omega
        rw [hq]
        rw [fullMaxLoop_stable ffull rest EVAL_INF best
          (fun r hr => hb r (List.mem_cons_of_mem _ hr))]
    · rw [if_neg hbreak]
      have hv2 : (if v < ffull q then ffull q else v) ≤ EVAL_INF := by
        by_cases hc : v < ffull q
        · rw [if_pos hc]
          exact hfq
        · rw [if_neg hc]
          exact hv
      have halpha2 : max alpha (if v < ffull q then ffull q else v) < EVAL_INF := by
        have h2 := not_le.mp hbreak
        exact h2
      by_cases hc : v < ffull q
      · rw [if_pos hc] at halpha2 hv2
        simp only [if_pos hc]
        rw [ih (fun a r ha hr => hf a r ha (List.mem_cons_of_mem _ hr))
          (fun r hr => hb r (List.mem_cons_of_mem _ hr)) (ffull q) (some q)
          _ halpha2 hv2]
      · rw [if_neg hc] at halpha2 hv2
        simp only [if_neg hc]
        rw [ih (fun a r ha hr => hf a r ha (List.mem_cons_of_mem _ hr))
          (fun r hr => hb r (List.mem_cons_of_mem _ hr)) v best
          _ halpha2 hv2]

theorem abMinLoop_eq_full (fab : Int → Pos → Int) (ffull : Pos → Int) (moves : List Pos)
    (hf : ∀ a q, a < EVAL_INF → q ∈ moves → fab a q = ffull q) :
    ∀ v best alpha, alpha < EVAL_INF →
      abMinLoop EVAL_INF fab moves v best alpha = fullMinLoop ffull moves v best := by
  induction moves with
  | nil => intro v best alpha _; rfl
  | cons q rest ih =>
    intro v best alpha halpha
    simp only [abMinLoop, fullMinLoop]
    rw [hf alpha q halpha (List.mem_cons_self q rest)]
    rw [if_neg (by
      have h1 : min alpha (if ffull q < v then ffull q else v) ≤ alpha := min_le_left _ _
      omega)]
    split
    · exact ih (fun a r ha hr => hf a r ha (List.mem_cons_of_mem _ hr)) (ffull q) (some q) _
        (by have h1 : min alpha (ffull q) ≤ alpha := min_le_left _ _; omega)
    · exact ih (fun a r ha hr => hf a r ha (List.mem_cons_of_mem _ hr)) v best _
        (by have h1 : min alpha v ≤ alpha := min_le_left _ _; omega)

theorem minimax_eq_full (M N K : Nat) (hM : M ≤ 15) (hN : N ≤ 15) :
    ∀ (depth : Nat) (b : Board) (alpha : Int) (mx : Bool) (prev : Option Pos),
      alpha < EVAL_INF →
      minimax M N K depth b alpha EVAL_INF mx prev = minimaxFull M N K depth b mx prev := by
  intro depth
  induction depth with
  | zero =>
    intro b alpha mx prev _
    cases hw : checkWin M N K b <;> simp [minimax, minimaxFull, hw]
  | succ d ih =>
    intro b alpha mx prev halpha
    cases hw : checkWin M N K b
    case wus => simp only [minimax, minimaxFull, hw]
    case wthem => simp only [minimax, minimaxFull, hw]
    case wtie => simp only [minimax, minimaxFull, hw]
    case wnone =>
      cases mx
      · simp only [minimax, minimaxFull, hw, Bool.false_eq_true, if_false]
        rw [abMinLoop_eq_full
          (fun a q => (minimax M N K d (copyWithMove b Cell.cthem q.1 q.2) a EVAL_INF true none).1)
          (fun q => (minimaxFull M N K d (copyWithMove b Cell.cthem q.1 q.2) true none).1)
          (posList M N b)
          (fun a q ha _ =>
            congrArg Prod.fst (ih (copyWithMove b Cell.cthem q.1 q.2) a true none ha))
          EVAL_INF none alpha halpha]
      · simp only [minimax, minimaxFull, hw, if_true]
        rw [abMaxLoop_eq_full
          (fun a q => (minimax M N K d (copyWithMove b Cell.cus q.1 q.2) a EVAL_INF false none).1)
          (fun q => (minimaxFull M N K d (copyWithMove b Cell.cus q.1 q.2) false none).1)
          (posList M N b)
          (fun a q ha _ =>
            congrArg Prod.fst (ih (copyWithMove b Cell.cus q.1 q.2) a false none ha))
          (fun q _ => minimaxFull_le M N K hM hN d (copyWithMove b Cell.cus q.1 q.2) false none)
          EVAL_N_INF none alpha halpha (by decide)]

/-- C3: with the sentinel window `alpha = -10000`, `beta = +10000`, the
alpha-beta minimax as implemented returns exactly the same score and selects
exactly the same move as the unpruned minimax with the same depth bound and
loss-decay adjustment, on every board with `M, N ≤ 15` and every depth. -/
theorem claim_C3 (M N K : Nat) (b : Board) (hM : M ≤ 15) (hN : N ≤ 15)
    (depth : Nat) (prev : Option Pos) :
    minimax M N K depth b EVAL_N_INF EVAL_INF true prev =
      minimaxFull M N K depth b true prev :=
  minimax_eq_full M N K hM hN depth b EVAL_N_INF true prev (by decide)

/-- Witness for C3 on the empty 2-by-2 board at depth 2. -/
theorem claim_C3_witness :
    (2 ≤ 15 ∧ 2 ≤ 15) ∧
      minimax 2 2 2 2 (fun _ _ => Cell.cnone) EVAL_N_INF EVAL_INF true none =
        minimaxFull 2 2 2 2 (fun _ _ => Cell.cnone) true none :=
  ⟨⟨by decide, by decide⟩,
    claim_C3 2 2 2 (fun _ _ => Cell.cnone) (by decide) (by decide) 2 none⟩


/-- C4: the claim misreads the minimizing branch.  In the source (line 539)
the minimizing loop executes `alpha = min(alpha, value)` and never lowers
`beta`, so the cutoff test `beta <= alpha` is not the claimed `alpha >= beta`
over a lowered beta.  Concretely, at the depth-1 minimizing node over the
empty 2-by-1 board with `K = 2` and entry window `alpha = 0`,
`beta = EVAL_INF` (both depth-0 children evaluate to `-4`): the loop as
implemented enumerates both children, while the claimed semantics (beta
lowered to the lowest value found, stop when `beta <= alpha`) cuts off after
the first child. -/
theorem claim_C4 :
    abMinVisits EVAL_INF
        (fun a q =>
          (minimax 2 1 2 0 (copyWithMove (fun _ _ => Cell.cnone) Cell.cthem q.1 q.2)
            a EVAL_INF true none).1)
        (posList 2 1 (fun _ _ => Cell.cnone)) EVAL_INF 0 = 2 ∧
      abMinVisitsClaimed 0
        (fun bp q =>
          (minimax 2 1 2 0 (copyWithMove (fun _ _ => Cell.cnone) Cell.cthem q.1 q.2)
            0 bp true none).1)
        (posList 2 1 (fun _ _ => Cell.cnone)) EVAL_INF EVAL_INF = 1 := by
  have hall : ∀ b : Board, posList 2 1 b = activeEmpty 2 1 b :=
    fun b => posList_eq_activeEmpty 2 1 b (by decide)
  rw [hall]
  constructor
  · decide
  · decide


/-- Membership in the empty-cell enumeration characterizes exactly the empty
cells of the active region. -/
theorem mem_activeEmpty (M N : Nat) (b : Board) (q : Pos) :
    q ∈ activeEmpty M N b ↔ q.1 < M ∧ q.2 < N ∧ b q.1 q.2 = Cell.cnone := by
  rcases q with ⟨x, y⟩
  simp only [activeEmpty, List.mem_flatMap, List.mem_filterMap, List.mem_range]
  constructor
  · rintro ⟨y2, hy2, x2, hx2, hcond⟩
    by_cases hc : b x2 y2 = Cell.cnone
    · rw [if_pos hc] at hcond
      have h := Option.some.inj hcond
      rw [Prod.mk.injEq] at h
      obtain ⟨rfl, rfl⟩ := h
      exact ⟨hx2, hy2, hc⟩
    · rw [if_neg hc] at hcond
      exact absurd hcond (by simp)
  · rintro ⟨hx, hy, hb⟩
    exact ⟨y, hy, x, hx, by rw [if_pos hb]⟩

/-- The cursor the maximizing loop leaves behind is either its initial value
or one of the enumerated moves. -/
theorem abMaxLoop_snd (beta : Int) (f : Int → Pos → Int) :
    ∀ (moves : List Pos) (v : Int) (best : Option Pos) (alpha : Int),
      (abMaxLoop beta f moves v best alpha).2 = best ∨
        ∃ q ∈ moves, (abMaxLoop beta f moves v best alpha).2 = some q := by
  intro moves
  induction moves with
  | nil =>
    intro v best alpha
    exact Or.inl rfl
  | cons q rest ih =>
    intro v best alpha
    simp only [abMaxLoop]
    by_cases hc : v < f alpha q
    · simp only [if_pos hc]
      split
      · exact Or.inr ⟨q, List.mem_cons_self q rest, rfl⟩
      · rcases ih (f alpha q) (some q) (max alpha (f alpha q)) with h | ⟨p, hp, h⟩
        · exact Or.inr ⟨q, List.mem_cons_self q rest, h⟩
        · exact Or.inr ⟨p, List.mem_cons_of_mem _ hp, h⟩
    · simp only [if_neg hc]
      split
      · exact Or.inl rfl
      · rcases ih v best (max alpha v) with h | ⟨p, hp, h⟩
        · exact Or.inl h
        · exact Or.inr ⟨p, List.mem_cons_of_mem _ hp, h⟩

/-- The cursor the minimizing loop leaves behind is either its initial value
or one of the enumerated moves. -/
theorem abMinLoop_snd (beta : Int) (f : Int → Pos → Int) :
    ∀ (moves : List Pos) (v : Int) (best : Option Pos) (alpha : Int),
      (abMinLoop beta f moves v best alpha).2 = best ∨
        ∃ q ∈ moves, (abMinLoop beta f moves v best alpha).2 = some q := by
  intro moves
  induction moves with
  | nil =>
    intro v best alpha
    exact Or.inl rfl
  | cons q rest ih =>
    intro v best alpha
    simp only [abMinLoop]
    by_cases hc : f alpha q < v
    · simp only [if_pos hc]
      split
      · exact Or.inr ⟨q, List.mem_cons_self q rest, rfl⟩
      · rcases ih (f alpha q) (some q) (min alpha (f alpha q)) with h | ⟨p, hp, h⟩
        · exact Or.inr ⟨q, List.mem_cons_self q rest, h⟩
        · exact Or.inr ⟨p, List.mem_cons_of_mem _ hp, h⟩
    · simp only [if_neg hc]
      split
      · exact Or.inl rfl
      · rcases ih v best (min alpha v) with h | ⟨p, hp, h⟩
        · exact Or.inl h
        · exact Or.inr ⟨p, List.mem_cons_of_mem _ hp, h⟩

/-- The move `minimax` reports is the caller's coordinates (terminal and
depth-0 paths leave them untouched), the `-1` sentinel, or one of the current
board's legal moves (the loop branches write the best child found, with the
locals initialized to `-1`). -/
theorem minimax_snd (M N K : Nat) (depth : Nat) (b : Board) (alpha beta : Int)
    (mx : Bool) (prev : Option Pos) :
    (minimax M N K depth b alpha beta mx prev).2 = prev ∨
      (minimax M N K depth b alpha beta mx prev).2 = none ∨
      ∃ q ∈ posList M N b, (minimax M N K depth b alpha beta mx prev).2 = some q := by
  cases depth with
  | zero =>
    cases hw : checkWin M N K b <;> simp [minimax, hw]
  | succ d =>
    cases hw : checkWin M N K b
    case wus => simp [minimax, hw]
    case wthem => simp [minimax, hw]
    case wtie => simp [minimax, hw]
    case wnone =>
      cases mx
      · simp only [minimax, hw, Bool.false_eq_true, if_false]
        rcases abMinLoop_snd beta
            (fun a q => (minimax M N K d (copyWithMove b Cell.cthem q.1 q.2) a beta true none).1)
            (posList M N b) EVAL_INF none alpha with h | ⟨q, hq, h⟩
        · exact Or.inr (Or.inl h)
        · exact Or.inr (Or.inr ⟨q, hq, h⟩)
      · simp only [minimax, hw, if_true]
        rcases abMaxLoop_snd beta
            (fun a q => (minimax M N K d (copyWithMove b Cell.cus q.1 q.2) a beta false none).1)
            (posList M N b) EVAL_N_INF none alpha with h | ⟨q, hq, h⟩
        · exact Or.inr (Or.inl h)
        · exact Or.inr (Or.inr ⟨q, hq, h⟩)

/-- The best move `higestScoredMove`'s loop keeps is its initial value or one
of the enumerated moves. -/
theorem hsLoop_snd (M N K : Nat) (b : Board) :
    ∀ (moves : List Pos) (ms : Int) (best : Option Pos),
      hsLoop M N K b moves ms best = best ∨
        ∃ q ∈ moves, hsLoop M N K b moves ms best = some q := by
  intro moves
  induction moves with
  | nil =>
    intro ms best
    exact Or.inl rfl
  | cons q rest ih =>
    intro ms best
    simp only [hsLoop]
    split
    · rcases ih (evaluateBoard M N K (copyWithMove b Cell.cus q.1 q.2)) (some q) with
        h | ⟨p, hp, h⟩
      · exact Or.inr ⟨q, List.mem_cons_self q rest, h⟩
      · exact Or.inr ⟨p, List.mem_cons_of_mem _ hp, h⟩
    · rcases ih ms best with h | ⟨p, hp, h⟩
      · exact Or.inl h
      · exact Or.inr ⟨p, List.mem_cons_of_mem _ hp, h⟩

/-- On a nonempty move list the single-ply scorer always finds a move: the
first candidate's score, at least `-7230`, beats the `EVAL_N_INF` initial
maximum. -/
theorem hsLoop_cons_some (M N K : Nat) (b : Board) (hM : M ≤ 15) (hN : N ≤ 15)
    (q0 : Pos) (rest : List Pos) :
    ∃ q ∈ (q0 :: rest : List Pos), hsLoop M N K b (q0 :: rest) EVAL_N_INF none = some q := by
  have hev := evaluateBoard_le M N K (copyWithMove b Cell.cus q0.1 q0.2) hM hN
  simp only [hsLoop]
  rw [if_pos (show EVAL_N_INF < evaluateBoard M N K (copyWithMove b Cell.cus q0.1 q0.2) from by
    simp only [EVAL_N_INF]
    omega)]
  rcases hsLoop_snd M N K b rest
      (evaluateBoard M N K (copyWithMove b Cell.cus q0.1 q0.2)) (some q0) with h | ⟨p, hp, h⟩
  · exact ⟨q0, List.mem_cons_self q0 rest, h⟩
  · exact ⟨p, List.mem_cons_of_mem _ hp, h⟩

/-- Whatever `basicSolve` returns came out of one of its six
`while(nextPosition(...))` loops, hence is a legal (empty) position. -/
theorem basicSolve_mem (M N K : Nat) (b : Board) (q : Pos)
    (h : basicSolve M N K b = some q) : q ∈ posList M N b := by
  unfold basicSolve at h
  rcases h1 : block1 M N K b with _ | p
  · simp only [h1] at h
    rcases h2 : block2 M N K b with _ | p
    · simp only [h2] at h
      rcases h3 : block3 M N K b with _ | p
      · simp only [h3] at h
        rcases h4 : block4 M N K b with _ | p
        · simp only [h4] at h
          rcases h5 : block5 M N K b with _ | p
          · simp only [h5] at h
            exact List.mem_of_find?_eq_some h
          · simp only [h5] at h
            obtain rfl := Option.some.inj h
            exact List.mem_of_find?_eq_some h5
        · simp only [h4] at h
          obtain rfl := Option.some.inj h
          exact List.mem_of_find?_eq_some h4
      · simp only [h3] at h
        obtain rfl := Option.some.inj h
        exact List.mem_of_find?_eq_some h3
    · simp only [h2] at h
      obtain rfl := Option.some.inj h
      exact List.mem_of_find?_eq_some h2
  · simp only [h1] at h
    obtain rfl := Option.some.inj h
    exact List.mem_of_find?_eq_some h1

/-- A nonempty list has a last element, and it is a member. -/
theorem getLast_mem_cons {α : Type} (a : α) :
    ∀ l : List α, ∃ c, (a :: l).getLast? = some c ∧ c ∈ a :: l := by
  intro l
  induction l generalizing a with
  | nil => exact ⟨a, by simp, List.mem_cons_self a []⟩
  | cons x xs ih =>
    rcases ih x with ⟨c, hc, hmem⟩
    exact ⟨c, by rw [List.getLast?_cons_cons]; exact hc, List.mem_cons_of_mem a hmem⟩

/-- C9: the move-selection pipeline runs `basicSolve`, then `minimax` at the
computed depth, then the highest-scored single-ply move, then the
first-empty-cell fallback, each later stage only when every earlier one found
nothing.  Whenever the active region holds an empty cell the pipeline
produces a move and that move is an empty cell of the board (even the stale
cursor `minimaxMove` can report is the last enumerated empty cell); when the
region holds none, every stage reports no move available and the pipeline
produces no move. -/
theorem claim_C9 (M N K : Nat) (b : Board) (hM : 1 ≤ M) (hM15 : M ≤ 15)
    (hN : 1 ≤ N) (hN15 : N ≤ 15) :
    ((∃ p : Pos, p.1 < M ∧ p.2 < N ∧ b p.1 p.2 = Cell.cnone) →
      ∃ q : Pos, chooseMove M N K b = some q ∧ q.1 < M ∧ q.2 < N ∧ b q.1 q.2 = Cell.cnone) ∧
      ((∀ p : Pos, p.1 < M → p.2 < N → b p.1 p.2 ≠ Cell.cnone) →
        chooseMove M N K b = none) := by
  have hpl := posList_eq_activeEmpty M N b hM
  have hmem : ∀ q : Pos, q ∈ posList M N b → q.1 < M ∧ q.2 < N ∧ b q.1 q.2 = Cell.cnone :=
    fun q hq => (mem_activeEmpty M N b q).mp (hpl ▸ hq)
  constructor
  · rintro ⟨p, hp1, hp2, hp3⟩
    have hpmem : p ∈ posList M N b := by
      rw [hpl]
      exact (mem_activeEmpty M N b p).mpr ⟨hp1, hp2, hp3⟩
    unfold chooseMove
    cases hbs : basicSolve M N K b with
    | some q => exact ⟨q, rfl, hmem q (basicSolve_mem M N K b q hbs)⟩
    | none =>
      obtain ⟨q0, rest, hq0⟩ : ∃ q0 rest, posList M N b = q0 :: rest := by
        rcases hl : posList M N b with _ | ⟨a, l⟩
        · rw [hl] at hpmem
          exact absurd hpmem (List.not_mem_nil p)
        · exact ⟨a, l, rfl⟩
      rcases getLast_mem_cons q0 rest with ⟨c, hgl, hcmem⟩
      have hcpl : c ∈ posList M N b := by
        rw [hq0]
        exact hcmem
      rw [hq0, hgl]
      simp only [minimaxMove]
      rcases minimax_snd M N K (calculateDepth (countEmpty M N b) MAX_MINIMAX_SEARCH_NODES) b
          EVAL_N_INF EVAL_INF true (some c) with h | h | ⟨q, hq, h⟩
      · rw [h]
        exact ⟨c, rfl, hmem c hcpl⟩
      · rw [h]
        rcases hsLoop_cons_some M N K b hM15 hN15 q0 rest with ⟨q, hq, hh⟩
        have hhs : higestScoredMove M N K b = some q := by
          unfold higestScoredMove
          rw [hq0]
          exact hh
        rw [hhs]
        refine ⟨q, rfl, hmem q ?_⟩
        rw [hq0]
        exact hq
      · rw [h]
        exact ⟨q, rfl, hmem q hq⟩
  · intro hfull
    have hpl0 : posList M N b = [] := by
      rw [hpl]
      rcases hl : activeEmpty M N b with _ | ⟨a, l⟩
      · rfl
      · exfalso
        have ha : a ∈ activeEmpty M N b := by
          rw [hl]
          exact List.mem_cons_self a l
        rcases (mem_activeEmpty M N b a).mp ha with ⟨ha1, ha2, ha3⟩
        exact hfull a ha1 ha2 ha3
    have hbs : basicSolve M N K b = none := by
      unfold basicSolve block1 block2 block3 block4 block5 block6
      rw [hpl0]
      rfl
    unfold chooseMove
    rw [hbs, hpl0]
    simp only [minimaxMove, List.getLast?_nil]
    have hmmx : (minimax M N K (calculateDepth (countEmpty M N b) MAX_MINIMAX_SEARCH_NODES) b
        EVAL_N_INF EVAL_INF true none).2 = none := by
      rcases minimax_snd M N K (calculateDepth (countEmpty M N b) MAX_MINIMAX_SEARCH_NODES) b
          EVAL_N_INF EVAL_INF true none with h | h | ⟨q, hq, h⟩
      · exact h
      · exact h
      · rw [hpl0] at hq
        exact absurd hq (List.not_mem_nil q)
    rw [hmmx]
    have hhs : higestScoredMove M N K b = none := by
      unfold higestScoredMove
      rw [hpl0]
      rfl
    rw [hhs]
    have hnp : nextPosition M N b none = none := by
      rcases hnp2 : nextPosition M N b none with _ | p
      · rfl
      · exfalso
        have hpm : p ∈ posList M N b := by
          obtain ⟨f, hf⟩ : ∃ f, M * N = f + 1 := by
            have h1 : 0 < M * N := Nat.mul_pos hM hN
            exact ⟨M * N - 1, by omega⟩
          unfold posList
          rw [hf]
          simp only [posListAux, hnp2]
          exact List.mem_cons_self _ _
        rw [hpl0] at hpm
        exact absurd hpm (List.not_mem_nil p)
    unfold backUpMove
    exact hnp

/-- Witness for C9 on the empty 2-by-2 board: the pipeline yields a move on
an empty cell. -/
theorem claim_C9_witness :
    ((1 : Nat) ≤ 2 ∧ (2 : Nat) ≤ 15) ∧
      ∃ q : Pos, chooseMove 2 2 2 (fun _ _ => Cell.cnone) = some q ∧
        q.1 < 2 ∧ q.2 < 2 ∧ (fun _ _ => Cell.cnone : Board) q.1 q.2 = Cell.cnone :=
  ⟨⟨by decide, by decide⟩,
    (claim_C9 2 2 2 (fun _ _ => Cell.cnone)
      (by decide) (by decide) (by decide) (by decide)).1
      ⟨(0, 0), by decide, by decide, rfl⟩⟩


end Mnk
